import Mathlib

/-!
Verification development for the two-tier knowledge store sync engine:
a shallow embedding of the Markdown codec, the local cache store (SQLite),
the git repository adapter and the sync orchestrator, with theorems about
the specified properties.

Text-processing code from the source (JavaScript strings) is embedded over
`List Char`; `String` wrappers are used at component boundaries.  JS
`String.prototype.trim` is modelled by trimming `Char.isWhitespace`
characters (adequate for the ASCII content these files hold), and
`toLowerCase` by `Char.toLower`.
-/

namespace SyncSpec

/- ============================================================ -/
/- Text primitives (JS string operations over `List Char`)      -/
/- ============================================================ -/

/-- Model of JS `trimStart`: drop leading whitespace. -/
def trimL (l : List Char) : List Char := l.dropWhile Char.isWhitespace

/-- Model of JS `trimEnd`: drop trailing whitespace. -/
def trimR (l : List Char) : List Char := (l.reverse.dropWhile Char.isWhitespace).reverse

/-- Model of JS `trim`. -/
def jsTrim (l : List Char) : List Char := trimR (trimL l)

/-- Model of JS `toLowerCase` (ASCII). -/
def toLowerL (l : List Char) : List Char := l.map Char.toLower

/-- First index of character `c` in `l` (JS `indexOf`), `none` when absent. -/
def charIdx (c : Char) : List Char → Option Nat
  | [] => none
  | x :: t => if x = c then some 0 else (charIdx c t).map (· + 1)

/-- Is `p` a prefix of `l`? (Boolean, structural.) -/
def isPfx : List Char → List Char → Bool
  | [], _ => true
  | _ :: _, [] => false
  | a :: as, b :: bs => a == b && isPfx as bs

/-- First index at which `pat` occurs as a contiguous sublist of `l`
(JS `String.prototype.indexOf` with a string pattern). -/
def firstMatchIdx (pat : List Char) : List Char → Option Nat
  | [] => if isPfx pat [] then some 0 else none
  | x :: t => if isPfx pat (x :: t) then some 0 else (firstMatchIdx pat t).map (· + 1)

/-- Split on every occurrence of the character `sep` (JS `split(sep)`); the
result always has one more chunk than there are separators. -/
def splitOnC (sep : Char) : List Char → List (List Char)
  | [] => [[]]
  | x :: t =>
    if x = sep then [] :: splitOnC sep t
    else
      match splitOnC sep t with
      | [] => [[x]]
      | h :: r => (x :: h) :: r

/-- Join chunks with a single separator character (inverse of `splitOnC`). -/
def joinC (sep : Char) : List (List Char) → List Char
  | [] => []
  | [l] => l
  | l :: ls => l ++ sep :: joinC sep ls

/-- Maximal runs of non-whitespace characters, in order. -/
def wsRuns : List Char → List (List Char)
  | [] => []
  | x :: t =>
    if x.isWhitespace then wsRuns t
    else
      match t with
      | [] => [[x]]
      | y :: _ =>
        if y.isWhitespace then [x] :: wsRuns t
        else
          match wsRuns t with
          | [] => [[x]]
          | h :: r => (x :: h) :: r

/-- Model of JS `split(/\s+/)`: the non-whitespace runs, plus an empty
leading (resp. trailing) field when the string starts (resp. ends) with
whitespace; the empty string yields `[[]]`. -/
def splitWsJS (l : List Char) : List (List Char) :=
  match l with
  | [] => [[]]
  | x :: t =>
    (if x.isWhitespace then [([] : List Char)] else []) ++ wsRuns (x :: t) ++
    (match (x :: t).getLast? with
     | some c => if c.isWhitespace then [([] : List Char)] else []
     | none => [])

/- ============================================================ -/
/- Markdown codec (`MarkdownParser` in the source)              -/
/- ============================================================ -/

/-- Value of one YAML frontmatter entry: the hand-rolled parser produces
either a scalar string or a single-level array of strings. -/
inductive YamlVal where
  | str (s : String)
  | arr (l : List String)
deriving DecidableEq, Repr

/-- Parsed frontmatter: the JS object built by `parseYamlSimple`, as an
association list in first-insertion order with later duplicate keys
overwriting in place. -/
abbrev Yaml := List (String × YamlVal)

/-- JS object assignment `result[key] = value`: overwrite in place when the
key exists, append otherwise. -/
def yamlInsert (m : Yaml) (k : String) (v : YamlVal) : Yaml :=
  if m.any (fun p => p.1 = k) then
    m.map (fun p => if p.1 = k then (k, v) else p)
  else m ++ [(k, v)]

/-- JS truthiness of a frontmatter field: `undefined` and the empty string
are falsy; arrays (even empty ones) are truthy. -/
def jsFalsyV : Option YamlVal → Bool
  | none => true
  | some (.str s) => s = ""
  | some (.arr _) => false

/-- Does the value `v` start and end with the quote character `q`
(JS `startsWith(q) && endsWith(q)`, true also for the single character `q`)? -/
def quotePairC (q : Char) (v : List Char) : Bool :=
  v.head? = some q && v.getLast? = some q

/-- JS `slice(1, -1)`. -/
def stripEnds (v : List Char) : List Char := (v.drop 1).dropLast

/-- Unquote one inline-array item: trim, then strip a surrounding quote pair. -/
def unquoteItem (s : List Char) : List Char :=
  let s := jsTrim s
  if quotePairC '"' s || quotePairC '\'' s then stripEnds s else s

/-- Interpretation of one raw (already trimmed) YAML value: quoted string,
inline array `[a, b, c]`, or plain scalar. -/
def coerceVal (v : List Char) : YamlVal :=
  if quotePairC '"' v || quotePairC '\'' v then .str ⟨stripEnds v⟩
  else if v.head? = some '[' && v.getLast? = some ']' then
    .arr (((splitOnC ',' (stripEnds v)).map unquoteItem).filter (fun s => s.length > 0)
      |>.map (fun s => (⟨s⟩ : String)))
  else .str ⟨v⟩

/-- Process one line of the frontmatter block (`parseYamlSimple` loop body). -/
def parseLine (acc : Yaml) (line : List Char) : Yaml :=
  let t := jsTrim line
  if t.isEmpty then acc
  else if t.head? = some '#' then acc
  else
    match charIdx ':' t with
    | none => acc
    | some i => yamlInsert acc ⟨jsTrim (t.take i)⟩ (coerceVal (jsTrim (t.drop (i + 1))))

/-- The hand-rolled flat YAML parser (`MarkdownParser.parseYamlSimple`). -/
def parseYamlSimple (yaml : List Char) : Yaml :=
  (splitOnC '\n' yaml).foldl parseLine []

/-- The frontmatter close delimiter pattern `\n---\n`. -/
def fmDelim : List Char := ['\n', '-', '-', '-', '\n']

/-- Split `content` per the regex `^---\n([\s\S]*?)\n---\n([\s\S]*)$`:
the lazy group 1 ends at the first occurrence of `\n---\n` after the
opening `---\n`. -/
def fmMatch (l : List Char) : Option (List Char × List Char) :=
  if isPfx ['-', '-', '-', '\n'] l then
    match firstMatchIdx fmDelim (l.drop 4) with
    | some i => some ((l.drop 4).take i, (l.drop 4).drop (i + 5))
    | none => none
  else none

namespace MarkdownParser

/-- `MarkdownParser.parse`: split off the frontmatter block; when no valid
block is found return `none` and the whole input as body. -/
def parse (content : String) : Option Yaml × String :=
  match fmMatch content.data with
  | none => (none, content)
  | some (y, rest) => (some (parseYamlSimple y), ⟨jsTrim rest⟩)

/-- Frontmatter record (`MarkdownFrontmatter` in the shared types). -/
structure Frontmatter where
  type : String
  name : String
  product_line : String
  title : String
  tags : List String
  created : String
  updated : String
  source_project : Option String
deriving DecidableEq, Repr

/-- JS `title.replace(/"/g, '\\"')`. -/
def escapeQuotes (s : List Char) : List Char :=
  s.foldr (fun c acc => if c = '"' then '\\' :: '"' :: acc else c :: acc) []

/-- JS `join(', ')`. -/
def joinCommaSp : List (List Char) → List Char
  | [] => []
  | [x] => x
  | x :: xs => x ++ ',' :: ' ' :: joinCommaSp xs

/-- The YAML lines rendered by `MarkdownParser.serialize`, in its fixed
key order. -/
def yamlLines (fm : Frontmatter) : List (List Char) :=
  [ "type".data ++ ':' :: ' ' :: fm.type.data,
    "name".data ++ ':' :: ' ' :: fm.name.data,
    "product_line".data ++ ':' :: ' ' :: fm.product_line.data,
    "title".data ++ ':' :: ' ' :: '"' :: escapeQuotes fm.title.data ++ ['"'] ]
  ++ (if fm.tags.length > 0 then
        ["tags".data ++ ':' :: ' ' :: '[' :: joinCommaSp (fm.tags.map (fun t => '"' :: t.data ++ ['"'])) ++ [']']]
      else [])
  ++ [ "created".data ++ ':' :: ' ' :: fm.created.data,
       "updated".data ++ ':' :: ' ' :: fm.updated.data ]
  ++ (match fm.source_project with
      | some sp => if sp = "" then [] else ["source_project".data ++ ':' :: ' ' :: sp.data]
      | none => [])

/-- `MarkdownParser.serialize`: delimited metadata block in fixed key order,
blank line, body, trailing newline. -/
def serialize (fm : Frontmatter) (body : String) : String :=
  ⟨"---\n".data ++ joinC '\n' (yamlLines fm) ++ fmDelim ++ '\n' :: body.data ++ ['\n']⟩

/-- JS string coercion of a frontmatter value (an array coerces to its
elements joined with commas); files produced by this codec never hold
arrays in scalar positions. -/
def yamlToString : YamlVal → String
  | .str s => s
  | .arr l => String.intercalate "," l

/-- Read a frontmatter value in tags position as a list; this codec's own
files always carry an inline array there. -/
def yamlToTags : YamlVal → List String
  | .arr l => l
  | .str s => [s]

end MarkdownParser

/-- Asset input record (`KnowledgeAssetInput` in the shared types). -/
structure KnowledgeAssetInput where
  type : String
  name : String
  product_line : String
  tags : Option (List String)
  title : String
  content : String
  source_project : Option String
  l2_path : Option String
deriving DecidableEq, Repr

namespace MarkdownParser

/-- Convenience for reading a frontmatter key that the caller has checked
to be present. -/
def fmGet (fm : Yaml) (k : String) : YamlVal := (fm.lookup k).getD (.str "")

/-- `MarkdownParser.toAssetInput`: `none` when there is no frontmatter or
`type`/`name` is missing or empty (JS falsy); defaults `product_line` to
`"general"` and `title` to the name. -/
def toAssetInput (path content : String) : Option KnowledgeAssetInput :=
  match parse content with
  | (none, _) => none
  | (some fm, body) =>
    if jsFalsyV (fm.lookup "type") || jsFalsyV (fm.lookup "name") then none
    else some {
      type := yamlToString (fmGet fm "type")
      name := yamlToString (fmGet fm "name")
      product_line := if jsFalsyV (fm.lookup "product_line") then "general"
                      else yamlToString (fmGet fm "product_line")
      tags := some (if jsFalsyV (fm.lookup "tags") then []
                    else yamlToTags (fmGet fm "tags"))
      title := if jsFalsyV (fm.lookup "title") then yamlToString (fmGet fm "name")
               else yamlToString (fmGet fm "title")
      content := body
      source_project := (fm.lookup "source_project").map yamlToString
      l2_path := some path }

/-- `MarkdownParser.fromAssetInput`: serialize an asset input, stamping the
current ISO time into `created` and `updated`. -/
def fromAssetInput (asset : KnowledgeAssetInput) (nowIso : String) : String :=
  serialize {
    type := asset.type, name := asset.name, product_line := asset.product_line,
    title := asset.title, tags := asset.tags.getD [],
    created := nowIso, updated := nowIso,
    source_project := asset.source_project } asset.content

/-- `MarkdownParser.getL2Path`: `knowledge/<product_line with . -> />/<name>.md`. -/
def getL2Path (asset : KnowledgeAssetInput) : String :=
  ⟨"knowledge/".data ++ asset.product_line.data.map (fun c => if c = '.' then '/' else c)
    ++ '/' :: asset.name.data ++ ".md".data⟩

end MarkdownParser

/- ============================================================ -/
/- Local cache store (`DatabaseStore` in the source)            -/
/- ============================================================ -/

/-- Row of the `knowledge_assets` table. The `created_at`/`updated_at` ISO
strings are derived from the same `Date` value as the epoch columns and
carry no additional information, so only the epochs are modelled. -/
structure KnowledgeAssetRow where
  id : Nat
  type : String
  name : String
  product_line : String
  tags : Option (List String)
  title : String
  content : String
  source_project : Option String
  l2_path : Option String
  promoted : Bool
  created_at_epoch : Nat
  updated_at_epoch : Nat
deriving DecidableEq, Repr

/-- Row of the append-only `sync_log` table. -/
structure SyncLogRow where
  id : Nat
  direction : String
  file_path : Option String
  git_commit_sha : Option String
  status : String
  message : Option String
  created_at_epoch : Nat
deriving DecidableEq, Repr

/-- The SQLite database state: both tables plus their rowid counters. Rows
are kept in insertion (rowid) order. -/
structure StoreState where
  assets : List KnowledgeAssetRow
  nextAssetId : Nat
  syncLog : List SyncLogRow
  nextLogId : Nat
deriving DecidableEq, Repr

/-- JS `x || null` / `x || undefined` on an optional string: the empty
string is falsy. -/
def jsStrOpt : Option String → Option String
  | some s => if s = "" then none else some s
  | none => none

namespace DatabaseStore

/-- `SELECT * FROM knowledge_assets WHERE id = ?` (first match). -/
def getKnowledgeAsset (st : StoreState) (id : Nat) : Option KnowledgeAssetRow :=
  st.assets.find? (fun r => r.id = id)

/-- `SELECT * FROM knowledge_assets WHERE name = ? AND product_line = ?`. -/
def getKnowledgeAssetByName (st : StoreState) (name productLine : String) :
    Option KnowledgeAssetRow :=
  st.assets.find? (fun r => r.name = name && r.product_line = productLine)

/-- `DatabaseStore.createKnowledgeAsset`: INSERT with `promoted = 0`. -/
def createKnowledgeAsset (st : StoreState) (input : KnowledgeAssetInput) (now : Nat) :
    StoreState × KnowledgeAssetRow :=
  let row : KnowledgeAssetRow := {
    id := st.nextAssetId, type := input.type, name := input.name,
    product_line := input.product_line, tags := input.tags, title := input.title,
    content := input.content, source_project := jsStrOpt input.source_project,
    l2_path := jsStrOpt input.l2_path, promoted := false,
    created_at_epoch := now, updated_at_epoch := now }
  ({ st with assets := st.assets ++ [row], nextAssetId := st.nextAssetId + 1 }, row)

/-- The UPDATE applied by `upsertKnowledgeAsset` to the row(s) whose id
matches the existing row: only the mutable columns and `updated_at` are in
the SET list. -/
def updateRow (input : KnowledgeAssetInput) (now : Nat) (existing : KnowledgeAssetRow)
    (r : KnowledgeAssetRow) : KnowledgeAssetRow :=
  if r.id = existing.id then
    { r with
      type := input.type, tags := input.tags, title := input.title,
      content := input.content,
      source_project := (jsStrOpt input.source_project).orElse (fun _ => existing.source_project),
      l2_path := (jsStrOpt input.l2_path).orElse (fun _ => existing.l2_path),
      updated_at_epoch := now }
  else r

/-- `DatabaseStore.upsertKnowledgeAsset`: update the existing
`(name, product_line)` row, else insert a new unpromoted one; returns the
row re-read by id. -/
def upsertKnowledgeAsset (st : StoreState) (input : KnowledgeAssetInput) (now : Nat) :
    StoreState × KnowledgeAssetRow :=
  match getKnowledgeAssetByName st input.name input.product_line with
  | some existing =>
    let st' := { st with assets := st.assets.map (updateRow input now existing) }
    (st', (getKnowledgeAsset st' existing.id).getD (updateRow input now existing existing))
  | none => createKnowledgeAsset st input now

/-- `DatabaseStore.markAssetPromoted`. -/
def markAssetPromoted (st : StoreState) (id : Nat) (l2Path : String) (now : Nat) : StoreState :=
  { st with assets := st.assets.map (fun r =>
      if r.id = id then { r with promoted := true, l2_path := some l2Path, updated_at_epoch := now }
      else r) }

/-- `DatabaseStore.getUnpromotedAssets`: unpromoted rows ordered by
creation epoch ascending (stable for ties). -/
def getUnpromotedAssets (st : StoreState) : List KnowledgeAssetRow :=
  List.insertionSort (fun a b => a.created_at_epoch ≤ b.created_at_epoch)
    (st.assets.filter (fun r => r.promoted = false))

/-- Argument record of `DatabaseStore.createSyncLog`. -/
structure SyncLogInput where
  direction : String
  file_path : Option String := none
  git_commit_sha : Option String := none
  status : String
  message : Option String := none

/-- `DatabaseStore.createSyncLog`: append one audit row; optional fields
fall back to NULL under JS truthiness. -/
def createSyncLog (st : StoreState) (e : SyncLogInput) (now : Nat) :
    StoreState × SyncLogRow :=
  let row : SyncLogRow := {
    id := st.nextLogId, direction := e.direction,
    file_path := jsStrOpt e.file_path,
    git_commit_sha := jsStrOpt e.git_commit_sha,
    status := e.status, message := jsStrOpt e.message,
    created_at_epoch := now }
  ({ st with syncLog := st.syncLog ++ [row], nextLogId := st.nextLogId + 1 }, row)

/-- Maximum-epoch accumulator used by `getLastSuccessfulSync`; a later
entry wins a tie. -/
def lastSyncStep (acc : Option SyncLogRow) (e : SyncLogRow) : Option SyncLogRow :=
  match acc with
  | none => some e
  | some b => if b.created_at_epoch ≤ e.created_at_epoch then some e else some b

/-- `DatabaseStore.getLastSuccessfulSync`: the matching entry with the
greatest `created_at_epoch` (`ORDER BY created_at_epoch DESC LIMIT 1` over
the append-only log; a later insertion wins a tie). -/
def getLastSuccessfulSync (st : StoreState) (direction : String) : Option SyncLogRow :=
  (st.syncLog.filter (fun e => e.direction = direction && e.status = "success")).foldl
    lastSyncStep none

end DatabaseStore

/- ============================================================ -/
/- Repository adapter (`GitOperations` in the source)           -/
/- ============================================================ -/

/-- Result record of the adapter's commit/pull operations. -/
structure CommitResult where
  success : Bool
  commitSha : Option String
  error : Option String
deriving DecidableEq, Repr

/-- A file tree (working tree or committed snapshot) as a finite map from
path to content, in creation order. -/
abbrev Tree := List (String × String)

def treeGet (t : Tree) (p : String) : Option String :=
  (t.find? (fun e => e.1 = p)).map (fun e => e.2)

def treeSet (t : Tree) (p v : String) : Tree :=
  if t.any (fun e => e.1 = p) then t.map (fun e => if e.1 = p then (p, v) else e)
  else t ++ [(p, v)]

def treeDel (t : Tree) (p : String) : Tree := t.filter (fun e => !(e.1 = p))

/-- Extensional equality of two trees as finite maps; `git status
--porcelain` is empty exactly when the working tree agrees with HEAD. -/
def treeEqb (a b : Tree) : Bool :=
  (a.map Prod.fst ++ b.map Prod.fst).all (fun p => treeGet a p == treeGet b p)

namespace GitOperations

/-- State of the on-disk repository: HEAD commit id (the empty string
models `rev-parse` failing in a repository with no commits), the HEAD
snapshot, the working tree, and a counter supplying fresh commit ids. -/
structure GitState where
  headSha : String
  headTree : Tree
  worktree : Tree
  counter : Nat
deriving DecidableEq, Repr

/-- `GitOperations.getLastCommitSha`. -/
def getLastCommitSha (g : GitState) : String := g.headSha

/-- `GitOperations.readFile`: `null` when the file does not exist. -/
def readFile (g : GitState) (p : String) : Option String := treeGet g.worktree p

/-- `GitOperations.writeFile`. -/
def writeFile (g : GitState) (p v : String) : GitState :=
  { g with worktree := treeSet g.worktree p v }

/-- `GitOperations.listMarkdownFiles`: every `.md` file under `dir/`. -/
def listMarkdownFiles (g : GitState) (dir : String) : List String :=
  (g.worktree.map Prod.fst).filter (fun p => p.startsWith (dir ++ "/") && p.endsWith ".md")

/-- `GitOperations.addAndCommit`: stage the given paths (or everything),
commit only if `git status --porcelain` reports pending changes; `cmdOk`
models the try/catch around the underlying git commands (a thrown command
yields `success = false`). Committing stages-only content: when explicit
paths are given the new HEAD is HEAD overlaid with those paths from the
working tree, and `git commit` with an unchanged index fails. -/
def addAndCommit (g : GitState) (_message : String) (files : Option (List String))
    (cmdOk : Bool) : GitState × CommitResult :=
  if !cmdOk then (g, { success := false, commitSha := none, error := some "git command failed" })
  else if treeEqb g.worktree g.headTree then
    (g, { success := true, commitSha := some g.headSha, error := none })
  else
    let staged := match files with
      | some fs =>
        if fs.length > 0 then
          fs.foldl (fun t f =>
            match treeGet g.worktree f with
            | some v => treeSet t f v
            | none => treeDel t f) g.headTree
        else g.worktree
      | none => g.worktree
    if treeEqb staged g.headTree then
      (g, { success := false, commitSha := none, error := some "nothing to commit" })
    else
      let sha := "commit-" ++ toString (g.counter + 1)
      ({ g with headSha := sha, headTree := staged, counter := g.counter + 1 },
       { success := true, commitSha := some sha, error := none })

end GitOperations

/- ============================================================ -/
/- Index builder (`IndexGenerator` in the source)               -/
/- ============================================================ -/

/-- One line of the machine-readable index. -/
structure L2IndexEntry where
  path : String
  type : String
  name : String
  product_line : String
  title : String
  tags : List String
  updated : String
deriving DecidableEq, Repr

/-- The generated index document. -/
structure L2Index where
  version : String
  generated_at : String
  total : Nat
  by_type : List (String × Nat)
  by_product_line : List (String × Nat)
  entries : List L2IndexEntry
deriving DecidableEq, Repr

/-- Increment a counter map entry (`byType[k] = (byType[k] || 0) + 1`). -/
def bump (m : List (String × Nat)) (k : String) : List (String × Nat) :=
  if m.any (fun p => p.1 = k) then m.map (fun p => if p.1 = k then (k, p.2 + 1) else p)
  else m ++ [(k, 1)]

namespace IndexGenerator

open MarkdownParser in
/-- `IndexGenerator.generate`: walk every markdown file under `knowledge/`,
parse its frontmatter, silently skip files without a usable `type`/`name`,
and aggregate counts. -/
def generate (g : GitOperations.GitState) (nowIso : String) : L2Index :=
  let files := GitOperations.listMarkdownFiles g "knowledge"
  let entries := files.foldl (fun acc filePath =>
    match GitOperations.readFile g filePath with
    | none => acc
    | some content =>
      if content = "" then acc
      else
        match (parse content).1 with
        | none => acc
        | some fm =>
          if jsFalsyV (fm.lookup "type") || jsFalsyV (fm.lookup "name") then acc
          else acc ++ [{
            path := filePath
            type := yamlToString (fmGet fm "type")
            name := yamlToString (fmGet fm "name")
            product_line := if jsFalsyV (fm.lookup "product_line") then "general"
                            else yamlToString (fmGet fm "product_line")
            title := if jsFalsyV (fm.lookup "title") then yamlToString (fmGet fm "name")
                     else yamlToString (fmGet fm "title")
            tags := if jsFalsyV (fm.lookup "tags") then [] else yamlToTags (fmGet fm "tags")
            updated := if jsFalsyV (fm.lookup "updated") then ""
                       else yamlToString (fmGet fm "updated") }]) []
  { version := "2.1.0", generated_at := nowIso, total := entries.length,
    by_type := entries.foldl (fun m e => bump m e.type) [],
    by_product_line := entries.foldl (fun m e => bump m e.product_line) [],
    entries := entries }

/-- Rendering of one index entry. -/
def renderEntry (e : L2IndexEntry) : String :=
  e.path ++ "|" ++ e.type ++ "|" ++ e.name ++ "|" ++ e.product_line ++ "|" ++ e.title
    ++ "|" ++ String.intercalate "," e.tags ++ "|" ++ e.updated

/-- Text rendering of the index document, standing in for
`JSON.stringify(index, null, 2)`; no property proved here reads the index
back, so only the fact that a deterministic document is written matters. -/
def renderIndex (i : L2Index) : String :=
  i.version ++ ";" ++ i.generated_at ++ ";" ++ toString i.total ++ ";"
    ++ String.intercalate "," (i.by_type.map (fun p => p.1 ++ ":" ++ toString p.2)) ++ ";"
    ++ String.intercalate "," (i.by_product_line.map (fun p => p.1 ++ ":" ++ toString p.2)) ++ ";"
    ++ String.intercalate "\n" (i.entries.map renderEntry)

/-- `IndexGenerator.writeIndex`: write the index at its fixed path. -/
def writeIndex (g : GitOperations.GitState) (i : L2Index) : GitOperations.GitState :=
  GitOperations.writeFile g "knowledge/_index.json" (renderIndex i)

end IndexGenerator

/- ============================================================ -/
/- Sync orchestrator (`SyncEngine` in the source)               -/
/- ============================================================ -/

namespace SyncEngine

/-- Environment seen by `pullFromL2`: the outcome of the adapter's `pull()`
(which talks to the remote and is external to the orchestrator logic) and
the repository read operations used afterwards. -/
structure PullEnv where
  pullResult : CommitResult
  changedSince : String → List String
  mdFiles : List String
  readFile : String → Option String

/-- Loop body of `pullFromL2`: read, parse and upsert one changed file. -/
def pullStep (env : PullEnv) (now : Nat) (acc : StoreState × Nat) (filePath : String) :
    StoreState × Nat :=
  match env.readFile filePath with
  | none => acc
  | some content =>
    if content = "" then acc
    else
      match MarkdownParser.toAssetInput filePath content with
      | none => acc
      | some input => ((DatabaseStore.upsertKnowledgeAsset acc.1 input now).1, acc.2 + 1)

/-- `SyncEngine.pullFromL2`: read the pull watermark, short-circuit by
exact commit-id equality, otherwise import the changed asset files and
record one log entry. Each imported file is upserted at the same clock
instant `now`. -/
def pullFromL2 (env : PullEnv) (st : StoreState) (now : Nat) : StoreState × SyncLogRow :=
  let lastSync := DatabaseStore.getLastSuccessfulSync st "pull"
  let lastSha := (lastSync.bind (fun e => e.git_commit_sha)).getD ""
  if env.pullResult.success = false then
    DatabaseStore.createSyncLog st
      { direction := "pull", status := "failed",
        message := some (env.pullResult.error.getD "Pull failed") } now
  else
    let currentSha := env.pullResult.commitSha.getD ""
    if lastSha != "" && lastSha == currentSha then
      DatabaseStore.createSyncLog st
        { direction := "pull", git_commit_sha := some currentSha,
          status := "skipped", message := some "No changes since last sync" } now
    else
      let changedFiles :=
        if lastSha != "" then
          (env.changedSince lastSha).filter
            (fun f => f.startsWith "knowledge/" && f.endsWith ".md")
        else env.mdFiles
      let res := changedFiles.foldl (pullStep env now) (st, 0)
      DatabaseStore.createSyncLog res.1
        { direction := "pull", git_commit_sha := some currentSha, status := "success",
          message := some ("Imported " ++ toString res.2 ++ " assets from "
            ++ toString changedFiles.length ++ " changed files") } now

/-- The object literal `pushAllUnpromoted` rebuilds from a row for
`getL2Path` and `fromAssetInput`. -/
def assetInputOfRow (asset : KnowledgeAssetRow) : KnowledgeAssetInput :=
  { type := asset.type, name := asset.name, product_line := asset.product_line,
    title := asset.title, content := asset.content,
    tags := some (asset.tags.getD []),
    source_project := jsStrOpt asset.source_project,
    l2_path := none }

/-- Target path of one pushed asset: its stored `l2_path`, else the
derived one. -/
def pushPathOf (asset : KnowledgeAssetRow) : String :=
  (jsStrOpt asset.l2_path).getD (MarkdownParser.getL2Path (assetInputOfRow asset))

/-- Loop body of `pushAllUnpromoted`: write the asset file and mark the
asset promoted. -/
def pushStep (now : Nat) (nowIso : String)
    (acc : StoreState × GitOperations.GitState × List String × Nat)
    (asset : KnowledgeAssetRow) :
    StoreState × GitOperations.GitState × List String × Nat :=
  let l2Path := pushPathOf asset
  let content := MarkdownParser.fromAssetInput (assetInputOfRow asset) nowIso
  let g' := GitOperations.writeFile acc.2.1 l2Path content
  let st' := DatabaseStore.markAssetPromoted acc.1 asset.id l2Path now
  (st', g', acc.2.2.1 ++ [l2Path], acc.2.2.2 + 1)

/-- `SyncEngine.pushAllUnpromoted`: skip when nothing is unpromoted; else
write one file per asset, mark each promoted as it is written, regenerate
the index, make one batch commit and record one aggregate log entry. -/
def pushAllUnpromoted (st : StoreState) (g : GitOperations.GitState) (now : Nat)
    (nowIso : String) (cmdOk : Bool) :
    StoreState × GitOperations.GitState × SyncLogRow :=
  let unpromoted := DatabaseStore.getUnpromotedAssets st
  if unpromoted.length = 0 then
    let r := DatabaseStore.createSyncLog st
      { direction := "push", status := "skipped",
        message := some "No unpromoted assets to push" } now
    (r.1, g, r.2)
  else
    let r := unpromoted.foldl (pushStep now nowIso) (st, g, [], 0)
    let idx := IndexGenerator.generate r.2.1 nowIso
    let g2 := IndexGenerator.writeIndex r.2.1 idx
    let files := r.2.2.1 ++ ["knowledge/_index.json"]
    let pushed := r.2.2.2
    let cr := GitOperations.addAndCommit g2
      ("knowledge: batch push " ++ toString pushed ++ " assets") (some files) cmdOk
    let lg := DatabaseStore.createSyncLog r.1
      { direction := "push", git_commit_sha := cr.2.commitSha,
        status := if cr.2.success then "success" else "failed",
        message := some (if cr.2.success then "Pushed " ++ toString pushed ++ " assets to L2"
                         else cr.2.error.getD "Batch push failed") } now
    (lg.1, cr.1, lg.2)

end SyncEngine

/- ============================================================ -/
/- Search service (`SearchService.extractSnippet` in the source) -/
/- ============================================================ -/

namespace SearchService

/-- Keywords of a query: lowercase whitespace-split tokens longer than two
characters. -/
def keywordsOf (query : String) : List (List Char) :=
  (splitWsJS (toLowerL query.data)).filter (fun k => k.length > 2)

/-- Loop body of the first-keyword-match scan: keep the smallest index of
any keyword found so far. -/
def bmStep (lowerContent : List Char) (best : Option Nat) (k : List Char) : Option Nat :=
  match firstMatchIdx k lowerContent with
  | none => best
  | some idx =>
    match best with
    | none => some idx
    | some b => if idx < b then some idx else some b

/-- Index of the earliest occurrence of any keyword (`bestMatch` in the
source, with `-1` modelled as `none`). -/
def bestMatchOf (keywords : List (List Char)) (lowerContent : List Char) : Option Nat :=
  keywords.foldl (bmStep lowerContent) none

/-- `SearchService.extractSnippet`: the ±`contextLength` window around the
earliest case-insensitive occurrence of any keyword, ellipsis-wrapped where
truncated and finally trimmed; the first 100 characters plus an ellipsis
when no keyword matches; empty on empty content or query. -/
def extractSnippet (content query : String) (contextLength : Nat) : String :=
  if content = "" || query = "" then ""
  else
    let keywords := keywordsOf query
    if keywords.length = 0 then ⟨content.data.take 100⟩ ++ "..."
    else
      let lowerContent := toLowerL content.data
      match bestMatchOf keywords lowerContent with
      | none => ⟨content.data.take 100⟩ ++ "..."
      | some b =>
        let start := b - contextLength
        let stop := min content.data.length (b + contextLength)
        let core := (content.data.take stop).drop start
        let snippet := (if 0 < start then "...".data else []) ++ core ++
                       (if stop < content.data.length then "...".data else [])
        ⟨jsTrim snippet⟩

end SearchService

/- ============================================================ -/
/- Lock file (`acquireLock` / `releaseLock` in the source)      -/
/- ============================================================ -/

namespace LockModel

/-- Program counter of one process running `acquireLock()`; each
constructor is one filesystem syscall boundary of the source
(`existsSync`, `readFileSync`, `unlinkSync`, exclusive-create
`writeFileSync`). -/
inductive LockPC where
  | start
  | staleRead
  | unlinkStale
  | create
  | done (res : Bool)
deriving DecidableEq, Repr

/-- The shared lock file: absent, or present with the timestamp it
records. -/
abbrev LockFile := Option Nat

/-- One atomic step of `acquireLock()` run at wall-clock time `now`:
check existence; read the timestamp and compare against the 10s staleness
timeout (a vanished file falls to the catch block and proceeds to create);
unlink a stale lock; exclusive-create, which fails when the file exists. -/
def lockStep (now : Nat) : LockFile × LockPC → LockFile × LockPC
  | (w, .start) =>
    match w with
    | some _ => (w, .staleRead)
    | none => (w, .create)
  | (w, .staleRead) =>
    match w with
    | some t => if now - t > 10000 then (w, .unlinkStale) else (w, .done false)
    | none => (w, .create)
  | (_, .unlinkStale) => (none, .create)
  | (w, .create) =>
    match w with
    | none => (some now, .done true)
    | some _ => (w, .done false)
  | (w, .done r) => (w, .done r)

/-- Run one process to completion (four steps always reach `done`). -/
def stepN (now : Nat) : Nat → LockFile × LockPC → LockFile × LockPC
  | 0, s => s
  | n + 1, s => stepN now n (lockStep now s)

/-- A single uncontended `acquireLock()` call. -/
def acquireLock (now : Nat) (w : LockFile) : LockFile × LockPC :=
  stepN now 4 (w, .start)

/-- `releaseLock()`: unconditionally remove the lock file. -/
def releaseLock (_w : LockFile) : LockFile := none

/-- Interleaved execution of two concurrent `acquireLock()` attempts A and
B under a schedule (`true` steps A, `false` steps B), both inside the same
staleness window (one clock value `now`). -/
def runSched (now : Nat) : List Bool → LockFile × LockPC × LockPC → LockFile × LockPC × LockPC
  | [], s => s
  | b :: rest, (w, pa, pb) =>
    if b then
      let r := lockStep now (w, pa)
      runSched now rest (r.1, r.2, pb)
    else
      let r := lockStep now (w, pb)
      runSched now rest (r.1, pa, r.2)

/-- Did this process's attempt succeed? -/
def succeeded : LockPC → Bool
  | .done true => true
  | _ => false

/-- Has this process's attempt terminated? -/
def finished : LockPC → Bool
  | .done _ => true
  | _ => false

/-- Proof device: the states a process that is not (yet) the holder can be
in once the lock file exists. -/
def loserOK (p : LockPC) : Prop :=
  p = .start ∨ p = .staleRead ∨ p = .create ∨ p = .done false

/-- Proof device: invariant of two attempts racing from no lock file
within one staleness window — before any creation both processes head to
the exclusive create; afterwards exactly the creator has succeeded. -/
def LockInv (now : Nat) (s : LockFile × LockPC × LockPC) : Prop :=
  (s.1 = none ∧ (s.2.1 = .start ∨ s.2.1 = .create) ∧ (s.2.2 = .start ∨ s.2.2 = .create))
  ∨ (s.1 = some now ∧
      ((s.2.1 = .done true ∧ loserOK s.2.2) ∨ (s.2.2 = .done true ∧ loserOK s.2.1)))

end LockModel

/- ============================================================ -/
/- Specification-side predicates and witness fixtures           -/
/- ============================================================ -/

/-- Spec-side (for the snippet claim): keyword `k` occurs at index `i` of
`l`. -/
def specOccursAt (k l : List Char) (i : Nat) : Prop := isPfx k (l.drop i) = true

/-- Spec-side: `b` is the position of the first occurrence of any keyword. -/
def specEarliestMatch (kws : List (List Char)) (l : List Char) (b : Nat) : Prop :=
  (∃ k ∈ kws, specOccursAt k l b) ∧ ∀ j < b, ∀ k ∈ kws, ¬ specOccursAt k l j

/-- Spec-side: no keyword occurs anywhere in `l` (positions past the end
cannot carry a nonempty keyword). -/
def specNoMatch (kws : List (List Char)) (l : List Char) : Prop :=
  ∀ i < l.length, ∀ k ∈ kws, ¬ specOccursAt k l i

instance (k l : List Char) (i : Nat) : Decidable (specOccursAt k l i) := by
  unfold specOccursAt
  infer_instance

instance (kws : List (List Char)) (l : List Char) (b : Nat) :
    Decidable (specEarliestMatch kws l b) := by
  unfold specEarliestMatch
  infer_instance

instance (kws : List (List Char)) (l : List Char) : Decidable (specNoMatch kws l) := by
  unfold specNoMatch
  infer_instance

/-- A scalar frontmatter value the hand-rolled YAML syntax represents
verbatim: single-line, trim-stable, not quote- or bracket-delimited. -/
def plainScalar (s : String) : Prop :=
  '\n' ∉ s.data ∧ jsTrim s.data = s.data ∧ quotePairC '"' s.data = false ∧
  quotePairC '\'' s.data = false ∧
  (s.data.head? = some '[' && s.data.getLast? = some ']') = false

/-- A title the quote-escaping serializer round-trips: single-line and
free of double quotes (the parser strips quotes without unescaping). -/
def plainTitle (s : String) : Prop := '\n' ∉ s.data ∧ '"' ∉ s.data

/-- A tag the inline-array syntax round-trips: nonempty, single-line, free
of double quotes and of the `,` item separator. -/
def plainTag (s : String) : Prop := s ≠ "" ∧ '\n' ∉ s.data ∧ '"' ∉ s.data ∧ ',' ∉ s.data

instance (s : String) : Decidable (plainScalar s) := by
  unfold plainScalar
  infer_instance

instance (s : String) : Decidable (plainTitle s) := by
  unfold plainTitle
  infer_instance

instance (s : String) : Decidable (plainTag s) := by
  unfold plainTag
  infer_instance

/-- The seven frontmatter lines `serialize` always renders (with the tags
line present and the title free of quotes so that the escaping is the
identity), in the fixed key order of the source template. -/
def yamlBaseLines (fm : MarkdownParser.Frontmatter) : List (List Char) :=
  [ "type".data ++ ':' :: ' ' :: fm.type.data,
    "name".data ++ ':' :: ' ' :: fm.name.data,
    "product_line".data ++ ':' :: ' ' :: fm.product_line.data,
    "title".data ++ ':' :: ' ' :: ('"' :: fm.title.data ++ ['"']),
    "tags".data ++ ':' :: ' ' ::
      ('[' :: MarkdownParser.joinCommaSp (fm.tags.map (fun t => '"' :: t.data ++ ['"'])) ++ [']']),
    "created".data ++ ':' :: ' ' :: fm.created.data,
    "updated".data ++ ':' :: ' ' :: fm.updated.data ]

/-- The key-value pairs those seven lines parse back to. -/
def yamlBaseVals (fm : MarkdownParser.Frontmatter) : Yaml :=
  [ ("type", .str fm.type), ("name", .str fm.name),
    ("product_line", .str fm.product_line), ("title", .str fm.title),
    ("tags", .arr fm.tags),
    ("created", coerceVal (jsTrim fm.created.data)),
    ("updated", coerceVal (jsTrim fm.updated.data)) ]

/-- Empty store fixture. -/
def emptyStore : StoreState := ⟨[], 0, [], 0⟩

/-- Asset-input fixture. -/
def sampleInput (content : String) : KnowledgeAssetInput :=
  { type := "pitfall", name := "redis-timeout", product_line := "infra",
    tags := some ["db"], title := "Redis timeout", content := content,
    source_project := none, l2_path := none }

/-- An already promoted row fixture. -/
def promotedRow : KnowledgeAssetRow :=
  ⟨1, "pitfall", "redis-timeout", "infra", none, "Redis timeout", "old",
   none, some "knowledge/infra/redis-timeout.md", true, 0, 0⟩

/-- Store holding exactly the promoted fixture row. -/
def promotedStore : StoreState := ⟨[promotedRow], 2, [], 0⟩

/-- An unpromoted row fixture. -/
def unpromotedRow : KnowledgeAssetRow :=
  ⟨1, "pitfall", "redis-timeout", "infra", none, "Redis timeout", "body",
   none, none, false, 0, 0⟩

/-- Store holding exactly the unpromoted fixture row. -/
def unpromotedStore : StoreState := ⟨[unpromotedRow], 2, [], 0⟩

/-- Empty repository fixture. -/
def emptyGit : GitOperations.GitState := ⟨"", [], [], 0⟩

/-- Pull environment fixture: a successful pull at commit `c1` of a
repository with no asset files. -/
def pullEnvA : SyncEngine.PullEnv :=
  { pullResult := { success := true, commitSha := some "c1", error := none },
    changedSince := fun _ => [], mdFiles := [], readFile := fun _ => none }

/- ============================================================ -/
/- Store invariants and helper lemmas                           -/
/- ============================================================ -/

/-- Key invariant of the L1 store: `(name, product_line)` identifies at
most one row. -/
def UniqueKey (st : StoreState) : Prop :=
  st.assets.Pairwise (fun a b => ¬(a.name = b.name ∧ a.product_line = b.product_line))

/-- Rowid invariant: primary-key ids are pairwise distinct. -/
def UniqueId (st : StoreState) : Prop :=
  st.assets.Pairwise (fun a b => a.id ≠ b.id)

/-- Number of rows carrying the given `(name, product_line)` key. -/
def countKey (st : StoreState) (name productLine : String) : Nat :=
  (st.assets.filter (fun r => r.name = name && r.product_line = productLine)).length

namespace DatabaseStore

theorem updateRow_name (input : KnowledgeAssetInput) (now : Nat)
    (ex r : KnowledgeAssetRow) : (updateRow input now ex r).name = r.name := by
  unfold updateRow; split <;> rfl

theorem updateRow_product_line (input : KnowledgeAssetInput) (now : Nat)
    (ex r : KnowledgeAssetRow) : (updateRow input now ex r).product_line = r.product_line := by
  unfold updateRow; split <;> rfl

theorem updateRow_id (input : KnowledgeAssetInput) (now : Nat)
    (ex r : KnowledgeAssetRow) : (updateRow input now ex r).id = r.id := by
  unfold updateRow; split <;> rfl

theorem updateRow_promoted (input : KnowledgeAssetInput) (now : Nat)
    (ex r : KnowledgeAssetRow) : (updateRow input now ex r).promoted = r.promoted := by
  unfold updateRow; split <;> rfl

theorem updateRow_created (input : KnowledgeAssetInput) (now : Nat)
    (ex r : KnowledgeAssetRow) :
    (updateRow input now ex r).created_at_epoch = r.created_at_epoch := by
  unfold updateRow; split <;> rfl

theorem updateRow_self (input : KnowledgeAssetInput) (now : Nat) (ex r : KnowledgeAssetRow)
    (h : r.id = ex.id) :
    updateRow input now ex r =
      { r with
        type := input.type, tags := input.tags, title := input.title,
        content := input.content,
        source_project := (jsStrOpt input.source_project).orElse (fun _ => ex.source_project),
        l2_path := (jsStrOpt input.l2_path).orElse (fun _ => ex.l2_path),
        updated_at_epoch := now } := by
  unfold updateRow; rw [if_pos h]

/-- A row found by id in a store with pairwise-distinct ids is the row
itself. -/
theorem find?_id_of_nodup (l : List KnowledgeAssetRow)
    (hl : l.Pairwise (fun a b => a.id ≠ b.id)) (r : KnowledgeAssetRow) (hr : r ∈ l) :
    l.find? (fun x => x.id = r.id) = some r := by
  induction l with
  | nil => cases hr
  | cons a t ih =>
    rcases List.pairwise_cons.mp hl with ⟨ha, ht⟩
    rcases List.mem_cons.mp hr with rfl | hrt
    · simp [List.find?]
    · have hne : a.id ≠ r.id := ha r hrt
      have : (decide (a.id = r.id)) = false := by simp [hne]
      simp only [List.find?, this]
      exact ih ht hrt

/-- Two rows of an id-distinct list sharing an id are the same row. -/
theorem eq_of_mem_id (l : List KnowledgeAssetRow)
    (h : l.Pairwise (fun a b => a.id ≠ b.id)) (x y : KnowledgeAssetRow)
    (hx : x ∈ l) (hy : y ∈ l) (hid : x.id = y.id) : x = y := by
  induction l with
  | nil => cases hx
  | cons a t ih =>
    rcases List.pairwise_cons.mp h with ⟨ha, ht⟩
    rcases List.mem_cons.mp hx with rfl | hxt
    · rcases List.mem_cons.mp hy with rfl | hyt
      · rfl
      · exact absurd hid (ha y hyt)
    · rcases List.mem_cons.mp hy with rfl | hyt
      · exact absurd hid.symm (ha x hxt)
      · exact ih ht hxt hyt

theorem getByName_found (st : StoreState) (n pl : String) (ex : KnowledgeAssetRow)
    (h : getKnowledgeAssetByName st n pl = some ex) :
    ex ∈ st.assets ∧ ex.name = n ∧ ex.product_line = pl := by
  refine ⟨List.mem_of_find?_eq_some h, ?_⟩
  have := List.find?_some h
  simpa using this

theorem upsert_assets_found (st : StoreState) (input : KnowledgeAssetInput) (now : Nat)
    (ex : KnowledgeAssetRow)
    (hfind : getKnowledgeAssetByName st input.name input.product_line = some ex) :
    (upsertKnowledgeAsset st input now).1 =
      { st with assets := st.assets.map (updateRow input now ex) } := by
  unfold upsertKnowledgeAsset
  rw [hfind]

theorem upsert_found_lookup (st : StoreState) (input : KnowledgeAssetInput) (now : Nat)
    (ex : KnowledgeAssetRow) (hIds : UniqueId st)
    (hfind : getKnowledgeAssetByName st input.name input.product_line = some ex) :
    getKnowledgeAsset (upsertKnowledgeAsset st input now).1 ex.id =
      some (updateRow input now ex ex) := by
  rw [upsert_assets_found st input now ex hfind]
  unfold getKnowledgeAsset
  have hmem : ex ∈ st.assets := (getByName_found st _ _ ex hfind).1
  have hnodup : (st.assets.map (updateRow input now ex)).Pairwise (fun a b => a.id ≠ b.id) := by
    rw [List.pairwise_map]
    refine hIds.imp ?_
    intro a b hab
    simpa [updateRow_id] using hab
  have hmem' : updateRow input now ex ex ∈ st.assets.map (updateRow input now ex) :=
    List.mem_map_of_mem _ hmem
  have := find?_id_of_nodup _ hnodup (updateRow input now ex ex) hmem'
  simpa [updateRow_id] using this

theorem upsert_ret_found (st : StoreState) (input : KnowledgeAssetInput) (now : Nat)
    (ex : KnowledgeAssetRow) (hIds : UniqueId st)
    (hfind : getKnowledgeAssetByName st input.name input.product_line = some ex) :
    (upsertKnowledgeAsset st input now).2 = updateRow input now ex ex := by
  unfold upsertKnowledgeAsset
  rw [hfind]
  simp only []
  have h := upsert_found_lookup st input now ex hIds hfind
  rw [upsert_assets_found st input now ex hfind] at h
  simpa using congrArg (fun o => o.getD (updateRow input now ex ex)) h

theorem upsert_none_eq (st : StoreState) (input : KnowledgeAssetInput) (now : Nat)
    (hfind : getKnowledgeAssetByName st input.name input.product_line = none) :
    upsertKnowledgeAsset st input now = createKnowledgeAsset st input now := by
  unfold upsertKnowledgeAsset
  rw [hfind]

/-- Filtering by a property untouched by a map has unchanged length. -/
theorem length_filter_map_keep {α : Type} (f : α → α) (p : α → Bool) (l : List α)
    (hf : ∀ r, p (f r) = p r) :
    ((l.map f).filter p).length = (l.filter p).length := by
  induction l with
  | nil => rfl
  | cons a t ih =>
    by_cases hpa : p a = true
    · simp [List.filter, hf, hpa, ih]
    · simp only [Bool.not_eq_true] at hpa
      simp [List.filter, hf, hpa, ih]

theorem countKey_le_one (st : StoreState) (n pl : String) (hInv : UniqueKey st) :
    countKey st n pl ≤ 1 := by
  unfold countKey
  have hpw : (st.assets.filter (fun r => r.name = n && r.product_line = pl)).Pairwise
      (fun a b => ¬(a.name = b.name ∧ a.product_line = b.product_line)) :=
    hInv.sublist (List.filter_sublist _)
  have hall : ∀ x ∈ st.assets.filter (fun r => r.name = n && r.product_line = pl),
      x.name = n ∧ x.product_line = pl := by
    intro x hx
    have := List.of_mem_filter hx
    simpa using this
  match hfl : st.assets.filter (fun r => r.name = n && r.product_line = pl) with
  | [] => rw [hfl]; simp
  | [a] => rw [hfl]; simp
  | a :: b :: t =>
    exfalso
    rw [hfl] at hpw hall
    have hab := (List.pairwise_cons.mp hpw).1 b (by simp)
    have ha := hall a (by simp)
    have hb := hall b (by simp)
    exact hab ⟨ha.1.trans hb.1.symm, ha.2.trans hb.2.symm⟩

theorem countKey_pos_of_found (st : StoreState) (n pl : String) (ex : KnowledgeAssetRow)
    (h : getKnowledgeAssetByName st n pl = some ex) : 1 ≤ countKey st n pl := by
  unfold countKey
  unfold getKnowledgeAssetByName at h
  have hp := List.find?_some h
  have hmem : ex ∈ st.assets.filter (fun r => r.name = n && r.product_line = pl) :=
    List.mem_filter.mpr ⟨List.mem_of_find?_eq_some h, hp⟩
  exact List.length_pos.mpr (List.ne_nil_of_mem hmem)

theorem found_of_countKey_pos (st : StoreState) (n pl : String)
    (h : 1 ≤ countKey st n pl) : ∃ ex, getKnowledgeAssetByName st n pl = some ex := by
  unfold countKey at h
  have hne : st.assets.filter (fun r => r.name = n && r.product_line = pl) ≠ [] := by
    intro hnil; rw [hnil] at h; simp at h
  rcases List.exists_mem_of_ne_nil _ hne with ⟨x, hx⟩
  have hsome : (getKnowledgeAssetByName st n pl).isSome := by
    unfold getKnowledgeAssetByName
    exact List.find?_isSome.mpr ⟨x, (List.mem_filter.mp hx).1, (List.mem_filter.mp hx).2⟩
  exact ⟨(getKnowledgeAssetByName st n pl).get hsome, Option.eq_some_of_isSome hsome⟩

theorem uniqueKey_upsert (st : StoreState) (input : KnowledgeAssetInput) (now : Nat)
    (hInv : UniqueKey st) : UniqueKey (upsertKnowledgeAsset st input now).1 := by
  cases hfind : getKnowledgeAssetByName st input.name input.product_line with
  | some ex =>
    rw [upsert_assets_found st input now ex hfind]
    unfold UniqueKey at hInv ⊢
    simp only []
    rw [List.pairwise_map]
    refine hInv.imp ?_
    intro a b hab
    simpa [updateRow_name, updateRow_product_line] using hab
  | none =>
    rw [upsert_none_eq st input now hfind]
    unfold UniqueKey at hInv ⊢
    unfold createKnowledgeAsset
    simp only []
    rw [List.pairwise_append]
    refine ⟨hInv, by simp, ?_⟩
    intro a ha b hb
    simp only [List.mem_singleton] at hb
    subst hb
    have hno := List.find?_eq_none.mp hfind a ha
    simp only [Bool.and_eq_true, decide_eq_true_eq, not_and] at hno
    intro hcon
    exact hno hcon.1 hcon.2

theorem countKey_upsert_self (st : StoreState) (input : KnowledgeAssetInput) (now : Nat)
    (hInv : UniqueKey st) :
    countKey (upsertKnowledgeAsset st input now).1 input.name input.product_line = 1 := by
  cases hfind : getKnowledgeAssetByName st input.name input.product_line with
  | some ex =>
    rw [upsert_assets_found st input now ex hfind]
    unfold countKey
    simp only []
    rw [length_filter_map_keep _ _ _
      (fun r => by simp [updateRow_name, updateRow_product_line])]
    have h1 := countKey_le_one st input.name input.product_line hInv
    have h2 := countKey_pos_of_found st input.name input.product_line ex hfind
    unfold countKey at h1 h2
    omega
  | none =>
    rw [upsert_none_eq st input now hfind]
    unfold countKey createKnowledgeAsset
    simp only []
    rw [List.filter_append]
    have hnil : st.assets.filter
        (fun r => r.name = input.name && r.product_line = input.product_line) = [] := by
      rw [List.filter_eq_nil_iff]
      intro a ha
      exact List.find?_eq_none.mp hfind a ha
    rw [hnil]
    simp

end DatabaseStore

/- ============================================================ -/
/- C6: addAndCommit with a clean working tree                   -/
/- ============================================================ -/

/-- C6: `addAndCommit(message, files?)` called when, after staging, the
working tree has no pending changes returns a success result carrying the
current commit id and creates no new commit — a successful no-op, not an
error. -/
theorem C6_addAndCommit_clean_noop (g : GitOperations.GitState) (msg : String)
    (files : Option (List String))
    (h : treeEqb g.worktree g.headTree = true) :
    GitOperations.addAndCommit g msg files true =
      (g, { success := true, commitSha := some (GitOperations.getLastCommitSha g),
            error := none }) := by
  simp [GitOperations.addAndCommit, h, GitOperations.getLastCommitSha]

/-- Witness for C6 at a concrete repository state. -/
theorem C6_witness :
    treeEqb [("a", "1")] [("a", "1")] = true ∧
    GitOperations.addAndCommit ⟨"sha0", [("a", "1")], [("a", "1")], 0⟩ "msg" none true =
      (⟨"sha0", [("a", "1")], [("a", "1")], 0⟩,
       { success := true, commitSha := some "sha0", error := none }) :=
  ⟨by decide, C6_addAndCommit_clean_noop ⟨"sha0", [("a", "1")], [("a", "1")], 0⟩ "msg" none (by decide)⟩

/- ============================================================ -/
/- C4: the unique-key upsert                                    -/
/- ============================================================ -/

/-- C4: `upsert` preserves the invariant that `(name, product_line)`
identifies at most one row: an existing row is updated in place (mutable
fields and `updated_at`) and returned, otherwise one new unpromoted row is
inserted — and sinking the same key twice leaves exactly one row. -/
theorem C4_upsert_unique_key (st : StoreState) (input : KnowledgeAssetInput) (now : Nat)
    (hInv : UniqueKey st) (hIds : UniqueId st) :
    UniqueKey (DatabaseStore.upsertKnowledgeAsset st input now).1 ∧
    (∀ ex, DatabaseStore.getKnowledgeAssetByName st input.name input.product_line = some ex →
      (DatabaseStore.upsertKnowledgeAsset st input now).2.id = ex.id ∧
      (DatabaseStore.upsertKnowledgeAsset st input now).2.type = input.type ∧
      (DatabaseStore.upsertKnowledgeAsset st input now).2.tags = input.tags ∧
      (DatabaseStore.upsertKnowledgeAsset st input now).2.title = input.title ∧
      (DatabaseStore.upsertKnowledgeAsset st input now).2.content = input.content ∧
      (DatabaseStore.upsertKnowledgeAsset st input now).2.updated_at_epoch = now ∧
      (DatabaseStore.upsertKnowledgeAsset st input now).2
        ∈ (DatabaseStore.upsertKnowledgeAsset st input now).1.assets) ∧
    (DatabaseStore.getKnowledgeAssetByName st input.name input.product_line = none →
      (DatabaseStore.upsertKnowledgeAsset st input now).1.assets
        = st.assets ++ [(DatabaseStore.upsertKnowledgeAsset st input now).2] ∧
      (DatabaseStore.upsertKnowledgeAsset st input now).2.promoted = false) ∧
    (∀ input₂ now₂, input₂.name = input.name → input₂.product_line = input.product_line →
      countKey (DatabaseStore.upsertKnowledgeAsset
          (DatabaseStore.upsertKnowledgeAsset st input now).1 input₂ now₂).1
        input.name input.product_line = 1) := by
  refine ⟨DatabaseStore.uniqueKey_upsert st input now hInv, ?_, ?_, ?_⟩
  · intro ex hfind
    have hret := DatabaseStore.upsert_ret_found st input now ex hIds hfind
    have hself := DatabaseStore.updateRow_self input now ex ex rfl
    rw [hret, hself]
    refine ⟨rfl, rfl, rfl, rfl, rfl, rfl, ?_⟩
    rw [← hself, ← hret]
    rw [DatabaseStore.upsert_assets_found st input now ex hfind, hret]
    exact List.mem_map_of_mem _ (DatabaseStore.getByName_found st _ _ ex hfind).1
  · intro hfind
    rw [DatabaseStore.upsert_none_eq st input now hfind]
    exact ⟨rfl, rfl⟩
  · intro input₂ now₂ hn hpl
    have hInv1 := DatabaseStore.uniqueKey_upsert st input now hInv
    have := DatabaseStore.countKey_upsert_self
      (DatabaseStore.upsertKnowledgeAsset st input now).1 input₂ now₂ hInv1
    rwa [hn, hpl] at this

/-- Witness for C4: sinking the same key twice into an empty store leaves
one row. -/
theorem C4_witness :
    countKey
      (DatabaseStore.upsertKnowledgeAsset
        (DatabaseStore.upsertKnowledgeAsset emptyStore (sampleInput "one") 1).1
        (sampleInput "two") 2).1
      (sampleInput "one").name (sampleInput "one").product_line = 1 :=
  (C4_upsert_unique_key emptyStore (sampleInput "one") 1 List.Pairwise.nil
    List.Pairwise.nil).2.2.2 (sampleInput "two") 2 rfl rfl

/- ============================================================ -/
/- C10: frame conditions of the update branch                   -/
/- ============================================================ -/

namespace DatabaseStore

/-- Looking a row up by an id different from the marked one is unaffected
by `markAssetPromoted`. -/
theorem getKnowledgeAsset_mark_ne (st : StoreState) (id' : Nat) (p : String) (now' : Nat)
    (i : Nat) (h : id' ≠ i) :
    getKnowledgeAsset (markAssetPromoted st id' p now') i = getKnowledgeAsset st i := by
  unfold getKnowledgeAsset markAssetPromoted
  simp only []
  induction st.assets with
  | nil => rfl
  | cons a t ih =>
    rw [List.map_cons]
    by_cases ha' : a.id = id'
    · have h1 : (if a.id = id' then
          ({ a with promoted := true, l2_path := some p, updated_at_epoch := now' } : KnowledgeAssetRow)
          else a) =
          { a with promoted := true, l2_path := some p, updated_at_epoch := now' } :=
        if_pos ha'
      rw [h1]
      have hai : ¬(a.id = i) := fun hc => h (ha'.symm.trans hc)
      rw [List.find?_cons_of_neg _ (by simpa using hai),
          List.find?_cons_of_neg _ (by simpa using hai)]
      exact ih
    · have h1 : (if a.id = id' then
          ({ a with promoted := true, l2_path := some p, updated_at_epoch := now' } : KnowledgeAssetRow)
          else a) = a := if_neg ha'
      rw [h1]
      by_cases hai : a.id = i
      · rw [List.find?_cons_of_pos _ (by simpa using hai),
            List.find?_cons_of_pos _ (by simpa using hai)]
      · rw [List.find?_cons_of_neg _ (by simpa using hai),
            List.find?_cons_of_neg _ (by simpa using hai)]
        exact ih

/-- Membership characterisation of `getUnpromotedAssets`. -/
theorem mem_getUnpromoted (st : StoreState) (a : KnowledgeAssetRow) :
    a ∈ getUnpromotedAssets st ↔ a ∈ st.assets ∧ a.promoted = false := by
  unfold getUnpromotedAssets
  rw [(List.perm_insertionSort _ _).mem_iff, List.mem_filter]
  simp

end DatabaseStore

namespace SyncEngine

theorem pushStep_fst (now : Nat) (iso : String)
    (acc : StoreState × GitOperations.GitState × List String × Nat)
    (a : KnowledgeAssetRow) :
    (pushStep now iso acc a).1 =
      DatabaseStore.markAssetPromoted acc.1 a.id (pushPathOf a) now := rfl

/-- Folding the push loop over assets whose ids all differ from `i` leaves
the row with id `i` untouched. -/
theorem getKnowledgeAsset_pushFold_ne (now : Nat) (iso : String)
    (L : List KnowledgeAssetRow)
    (acc : StoreState × GitOperations.GitState × List String × Nat) (i : Nat)
    (h : ∀ a ∈ L, a.id ≠ i) :
    DatabaseStore.getKnowledgeAsset ((L.foldl (pushStep now iso) acc).1) i =
      DatabaseStore.getKnowledgeAsset acc.1 i := by
  induction L generalizing acc with
  | nil => rfl
  | cons a L ih =>
    rw [List.foldl_cons]
    rw [ih (pushStep now iso acc a) (fun x hx => h x (List.mem_cons_of_mem a hx))]
    rw [pushStep_fst]
    exact DatabaseStore.getKnowledgeAsset_mark_ne acc.1 a.id (pushPathOf a) now i
      (h a (List.mem_cons_self a L))

end SyncEngine

/-- C10: when `upsertKnowledgeAsset` updates an existing
`(name, product_line)` row it writes only the mutable columns and the
update timestamp — id, promoted flag and creation epoch are those of the
existing row and all other rows are untouched — so re-sinking an
already-promoted asset leaves it promoted, absent from
`getUnpromotedAssets()`, and untouched by the next `pushAllUnpromoted()`. -/
theorem C10_upsert_update_frame (st : StoreState) (input : KnowledgeAssetInput) (now : Nat)
    (g : GitOperations.GitState) (now₂ : Nat) (iso₂ : String) (ok : Bool)
    (hIds : UniqueId st) (ex : KnowledgeAssetRow)
    (hfind : DatabaseStore.getKnowledgeAssetByName st input.name input.product_line = some ex) :
    (DatabaseStore.upsertKnowledgeAsset st input now).2 =
      { ex with
        type := input.type, tags := input.tags, title := input.title,
        content := input.content,
        source_project := (jsStrOpt input.source_project).orElse (fun _ => ex.source_project),
        l2_path := (jsStrOpt input.l2_path).orElse (fun _ => ex.l2_path),
        updated_at_epoch := now } ∧
    (∀ x ∈ st.assets, x.id ≠ ex.id →
      x ∈ (DatabaseStore.upsertKnowledgeAsset st input now).1.assets) ∧
    (ex.promoted = true →
      (∀ a ∈ DatabaseStore.getUnpromotedAssets
          (DatabaseStore.upsertKnowledgeAsset st input now).1, a.id ≠ ex.id) ∧
      DatabaseStore.getKnowledgeAsset
        (SyncEngine.pushAllUnpromoted (DatabaseStore.upsertKnowledgeAsset st input now).1
          g now₂ iso₂ ok).1 ex.id =
        some ((DatabaseStore.upsertKnowledgeAsset st input now).2)) := by
  have hret := DatabaseStore.upsert_ret_found st input now ex hIds hfind
  have hself := DatabaseStore.updateRow_self input now ex ex rfl
  have hexmem : ex ∈ st.assets := (DatabaseStore.getByName_found st _ _ ex hfind).1
  have hids_ne : ∀ a ∈ DatabaseStore.getUnpromotedAssets
      (DatabaseStore.upsertKnowledgeAsset st input now).1, ex.promoted = true → a.id ≠ ex.id := by
    intro a ha hprom
    rw [DatabaseStore.mem_getUnpromoted] at ha
    rcases ha with ⟨hmem, hunprom⟩
    rw [DatabaseStore.upsert_assets_found st input now ex hfind] at hmem
    rcases List.mem_map.mp hmem with ⟨y, hy, rfl⟩
    by_cases hyid : y.id = ex.id
    · exfalso
      have hyex : y = ex := DatabaseStore.eq_of_mem_id st.assets hIds y ex hy hexmem hyid
      subst hyex
      rw [DatabaseStore.updateRow_promoted] at hunprom
      rw [hprom] at hunprom
      cases hunprom
    · rw [DatabaseStore.updateRow_id]
      exact hyid
  refine ⟨hret.trans hself, ?_, ?_⟩
  · intro x hx hxid
    rw [DatabaseStore.upsert_assets_found st input now ex hfind]
    have hfix : DatabaseStore.updateRow input now ex x = x := by
      unfold DatabaseStore.updateRow
      rw [if_neg hxid]
    have hmm := List.mem_map_of_mem (DatabaseStore.updateRow input now ex) hx
    rwa [hfix] at hmm
  · intro hprom
    refine ⟨fun a ha => hids_ne a ha hprom, ?_⟩
    have hlook := DatabaseStore.upsert_found_lookup st input now ex hIds hfind
    unfold SyncEngine.pushAllUnpromoted
    by_cases hlen : (DatabaseStore.getUnpromotedAssets
        (DatabaseStore.upsertKnowledgeAsset st input now).1).length = 0
    · rw [if_pos hlen, hret]
      exact hlook
    · rw [if_neg hlen, hret]
      exact (SyncEngine.getKnowledgeAsset_pushFold_ne now₂ iso₂
        (DatabaseStore.getUnpromotedAssets (DatabaseStore.upsertKnowledgeAsset st input now).1)
        ((DatabaseStore.upsertKnowledgeAsset st input now).1, g, [], 0) ex.id
        (fun a ha => hids_ne a ha hprom)).trans hlook

/-- Witness for C10: re-sinking the promoted fixture row updates only the
mutable columns, and the row survives the next push unchanged. -/
theorem C10_witness :
    (DatabaseStore.upsertKnowledgeAsset promotedStore (sampleInput "new") 5).2
      = { promotedRow with
          type := (sampleInput "new").type, tags := (sampleInput "new").tags,
          title := (sampleInput "new").title, content := (sampleInput "new").content,
          source_project := (jsStrOpt (sampleInput "new").source_project).orElse
            (fun _ => promotedRow.source_project),
          l2_path := (jsStrOpt (sampleInput "new").l2_path).orElse
            (fun _ => promotedRow.l2_path),
          updated_at_epoch := 5 } ∧
    DatabaseStore.getKnowledgeAsset
      (SyncEngine.pushAllUnpromoted
        (DatabaseStore.upsertKnowledgeAsset promotedStore (sampleInput "new") 5).1
        emptyGit 6 "t" true).1 promotedRow.id
      = some ((DatabaseStore.upsertKnowledgeAsset promotedStore (sampleInput "new") 5).2) :=
  ⟨(C10_upsert_update_frame promotedStore (sampleInput "new") 5 emptyGit 6 "t" true
      (by simp [UniqueId, promotedStore]) promotedRow (by decide)).1,
   ((C10_upsert_update_frame promotedStore (sampleInput "new") 5 emptyGit 6 "t" true
      (by simp [UniqueId, promotedStore]) promotedRow (by decide)).2.2 rfl).2⟩

/- ============================================================ -/
/- C2 and C9: the batch push                                    -/
/- ============================================================ -/

namespace SyncEngine

/-- After the push loop runs over a batch covering every unpromoted id,
every row is promoted. -/
theorem pushFold_all_promoted (now : Nat) (iso : String) (L : List KnowledgeAssetRow)
    (acc : StoreState × GitOperations.GitState × List String × Nat)
    (h : ∀ r ∈ acc.1.assets, r.promoted = true ∨ r.id ∈ L.map (fun a => a.id)) :
    ∀ r ∈ (L.foldl (pushStep now iso) acc).1.assets, r.promoted = true := by
  induction L generalizing acc with
  | nil =>
    intro r hr
    rcases h r hr with h1 | h1
    · exact h1
    · simp at h1
  | cons a L ih =>
    rw [List.foldl_cons]
    refine ih (pushStep now iso acc a) ?_
    intro x hx
    rw [pushStep_fst] at hx
    unfold DatabaseStore.markAssetPromoted at hx
    simp only [] at hx
    rcases List.mem_map.mp hx with ⟨y, hy, rfl⟩
    by_cases hid : y.id = a.id
    · left
      rw [if_pos hid]
    · rw [if_neg hid]
      rcases h y hy with hp | hm
      · exact Or.inl hp
      · rw [List.map_cons] at hm
        rcases List.mem_cons.mp hm with hc | hc
        · exact absurd hc hid
        · exact Or.inr hc

/-- After one `pushAllUnpromoted` every row of the store is promoted. -/
theorem pushAllUnpromoted_all_promoted (st : StoreState) (g : GitOperations.GitState)
    (now : Nat) (iso : String) (ok : Bool) :
    ∀ r ∈ (pushAllUnpromoted st g now iso ok).1.assets, r.promoted = true := by
  unfold pushAllUnpromoted
  by_cases hlen : (DatabaseStore.getUnpromotedAssets st).length = 0
  · rw [if_pos hlen]
    intro r hr
    have hfl : st.assets.filter (fun r => r.promoted = false) = [] := by
      have := (List.perm_insertionSort
        (fun a b : KnowledgeAssetRow => a.created_at_epoch ≤ b.created_at_epoch)
        (st.assets.filter (fun r => r.promoted = false))).length_eq
      unfold DatabaseStore.getUnpromotedAssets at hlen
      rw [hlen] at this
      exact List.length_eq_zero.mp this.symm
    have hall := List.filter_eq_nil_iff.mp hfl r hr
    simpa using hall
  · rw [if_neg hlen]
    intro r hr
    refine pushFold_all_promoted now iso (DatabaseStore.getUnpromotedAssets st)
      (st, g, [], 0) ?_ r hr
    intro x hxmem
    by_cases hp : x.promoted = true
    · exact Or.inl hp
    · right
      have hxu : x ∈ DatabaseStore.getUnpromotedAssets st :=
        (DatabaseStore.mem_getUnpromoted st x).mpr
          ⟨hxmem, by simpa using hp⟩
      exact List.mem_map_of_mem _ hxu

end SyncEngine

/-- C2: calling `pushAllUnpromoted()` twice with no intervening sink
yields, on the second call, a `skipped` log entry and creates no new
commit: the first call marked every batched asset promoted, so the second
call sees an empty unpromoted list and returns before touching the
repository. -/
theorem C2_pushAllUnpromoted_idempotent (st : StoreState) (g : GitOperations.GitState)
    (now₁ : Nat) (iso₁ : String) (ok₁ : Bool) (now₂ : Nat) (iso₂ : String) (ok₂ : Bool) :
    (SyncEngine.pushAllUnpromoted (SyncEngine.pushAllUnpromoted st g now₁ iso₁ ok₁).1
        (SyncEngine.pushAllUnpromoted st g now₁ iso₁ ok₁).2.1 now₂ iso₂ ok₂).2.2.status
      = "skipped" ∧
    (SyncEngine.pushAllUnpromoted (SyncEngine.pushAllUnpromoted st g now₁ iso₁ ok₁).1
        (SyncEngine.pushAllUnpromoted st g now₁ iso₁ ok₁).2.1 now₂ iso₂ ok₂).2.1
      = (SyncEngine.pushAllUnpromoted st g now₁ iso₁ ok₁).2.1 ∧
    (SyncEngine.pushAllUnpromoted (SyncEngine.pushAllUnpromoted st g now₁ iso₁ ok₁).1
        (SyncEngine.pushAllUnpromoted st g now₁ iso₁ ok₁).2.1 now₂ iso₂ ok₂).1.assets
      = (SyncEngine.pushAllUnpromoted st g now₁ iso₁ ok₁).1.assets := by
  have hall := SyncEngine.pushAllUnpromoted_all_promoted st g now₁ iso₁ ok₁
  have hempty : DatabaseStore.getUnpromotedAssets
      (SyncEngine.pushAllUnpromoted st g now₁ iso₁ ok₁).1 = [] := by
    unfold DatabaseStore.getUnpromotedAssets
    have hfl : (SyncEngine.pushAllUnpromoted st g now₁ iso₁ ok₁).1.assets.filter
        (fun r => r.promoted = false) = [] := by
      rw [List.filter_eq_nil_iff]
      intro a ha
      simp [hall a ha]
    rw [hfl]
    rfl
  generalize hP : SyncEngine.pushAllUnpromoted st g now₁ iso₁ ok₁ = P at hempty ⊢
  unfold SyncEngine.pushAllUnpromoted
  rw [hempty]
  exact ⟨rfl, rfl, rfl⟩

namespace SyncEngine

/-- A promoted row with a stored path survives the rest of the push loop. -/
theorem pushFold_preserve_good (now : Nat) (iso : String) (L : List KnowledgeAssetRow)
    (acc : StoreState × GitOperations.GitState × List String × Nat) (i : Nat)
    (h : ∃ r ∈ acc.1.assets, r.id = i ∧ r.promoted = true ∧ r.l2_path.isSome = true) :
    ∃ r ∈ (L.foldl (pushStep now iso) acc).1.assets,
      r.id = i ∧ r.promoted = true ∧ r.l2_path.isSome = true := by
  induction L generalizing acc with
  | nil => exact h
  | cons a L ih =>
    rw [List.foldl_cons]
    refine ih (pushStep now iso acc a) ?_
    rcases h with ⟨r, hr, hid, hp, hl⟩
    rw [pushStep_fst]
    unfold DatabaseStore.markAssetPromoted
    simp only []
    by_cases hra : r.id = a.id
    · exact ⟨{ r with promoted := true, l2_path := some (pushPathOf a), updated_at_epoch := now },
        List.mem_map.mpr ⟨r, hr, if_pos hra⟩, hid, rfl, rfl⟩
    · exact ⟨r, List.mem_map.mpr ⟨r, hr, if_neg hra⟩, hid, hp, hl⟩

/-- Every id batched by the push loop ends up promoted with a stored
path. -/
theorem pushFold_marks (now : Nat) (iso : String) (L : List KnowledgeAssetRow)
    (acc : StoreState × GitOperations.GitState × List String × Nat) (i : Nat)
    (hex : ∃ r ∈ acc.1.assets, r.id = i) (hin : i ∈ L.map (fun a => a.id)) :
    ∃ r ∈ (L.foldl (pushStep now iso) acc).1.assets,
      r.id = i ∧ r.promoted = true ∧ r.l2_path.isSome = true := by
  induction L generalizing acc with
  | nil => simp at hin
  | cons a L ih =>
    rw [List.foldl_cons]
    rw [List.map_cons] at hin
    rcases List.mem_cons.mp hin with hc | hc
    · refine pushFold_preserve_good now iso L (pushStep now iso acc a) i ?_
      rcases hex with ⟨r, hr, hid⟩
      rw [pushStep_fst]
      unfold DatabaseStore.markAssetPromoted
      simp only []
      have hra : r.id = a.id := hid.trans hc
      exact ⟨{ r with promoted := true, l2_path := some (pushPathOf a), updated_at_epoch := now },
        List.mem_map.mpr ⟨r, hr, if_pos hra⟩, hid, rfl, rfl⟩
    · refine ih (pushStep now iso acc a) ?_ hc
      rcases hex with ⟨r, hr, hid⟩
      rw [pushStep_fst]
      unfold DatabaseStore.markAssetPromoted
      simp only []
      by_cases hra : r.id = a.id
      · exact ⟨{ r with promoted := true, l2_path := some (pushPathOf a), updated_at_epoch := now },
          List.mem_map.mpr ⟨r, hr, if_pos hra⟩, hid⟩
      · exact ⟨r, List.mem_map.mpr ⟨r, hr, if_neg hra⟩, hid⟩

end SyncEngine

/-- C9: in `pushAllUnpromoted()` every batched asset is marked promoted
(promoted set, `l2_path` stored) before the single batch commit; when the
commit fails the promotions are not rolled back and the one log entry has
status `failed`. -/
theorem C9_pushAllUnpromoted_commit_failure (st : StoreState) (g : GitOperations.GitState)
    (now : Nat) (iso : String)
    (h : DatabaseStore.getUnpromotedAssets st ≠ []) :
    (SyncEngine.pushAllUnpromoted st g now iso false).2.2.status = "failed" ∧
    ∀ a ∈ DatabaseStore.getUnpromotedAssets st,
      ∃ r ∈ (SyncEngine.pushAllUnpromoted st g now iso false).1.assets,
        r.id = a.id ∧ r.promoted = true ∧ r.l2_path.isSome = true := by
  have hlen : ¬((DatabaseStore.getUnpromotedAssets st).length = 0) :=
    fun hc => h (List.length_eq_zero.mp hc)
  constructor
  · unfold SyncEngine.pushAllUnpromoted
    rw [if_neg hlen]
    rfl
  · intro a ha
    have hex : ∃ r ∈ st.assets, r.id = a.id :=
      ⟨a, ((DatabaseStore.mem_getUnpromoted st a).mp ha).1, rfl⟩
    have hres := SyncEngine.pushFold_marks now iso (DatabaseStore.getUnpromotedAssets st)
      (st, g, [], 0) a.id hex (List.mem_map_of_mem _ ha)
    unfold SyncEngine.pushAllUnpromoted
    rw [if_neg hlen]
    exact hres

/-- Witness for C9: one unpromoted row, failing commit. -/
theorem C9_witness :
    DatabaseStore.getUnpromotedAssets unpromotedStore ≠ [] ∧
    (SyncEngine.pushAllUnpromoted unpromotedStore emptyGit 3 "t" false).2.2.status = "failed" :=
  ⟨by decide,
   (C9_pushAllUnpromoted_commit_failure unpromotedStore emptyGit 3 "t" (by decide)).1⟩

/- ============================================================ -/
/- C1: monotonic pull                                           -/
/- ============================================================ -/

namespace DatabaseStore

theorem createSyncLog_syncLog (st : StoreState) (e : SyncLogInput) (now : Nat) :
    (createSyncLog st e now).1.syncLog = st.syncLog ++ [(createSyncLog st e now).2] := rfl

theorem upsert_syncLog (st : StoreState) (i : KnowledgeAssetInput) (n : Nat) :
    (upsertKnowledgeAsset st i n).1.syncLog = st.syncLog := by
  unfold upsertKnowledgeAsset
  cases getKnowledgeAssetByName st i.name i.product_line <;> rfl

/-- The max-epoch accumulator keeps either the new entry or the old
value. -/
theorem lastSyncStep_cases (acc : Option SyncLogRow) (x b : SyncLogRow)
    (hb : lastSyncStep acc x = some b) : b = x ∨ acc = some b := by
  rcases acc with _ | v
  · unfold lastSyncStep at hb
    cases hb
    exact Or.inl rfl
  · unfold lastSyncStep at hb
    simp only [] at hb
    by_cases hle : v.created_at_epoch ≤ x.created_at_epoch
    · rw [if_pos hle] at hb
      cases hb
      exact Or.inl rfl
    · rw [if_neg hle] at hb
      cases hb
      exact Or.inr rfl

/-- The max-epoch fold yields an entry bounded like its inputs. -/
theorem lastSyncStep_fold_le (P : SyncLogRow → Prop) (l : List SyncLogRow)
    (acc : Option SyncLogRow)
    (hacc : ∀ b, acc = some b → P b) (hl : ∀ x ∈ l, P x) :
    ∀ b, l.foldl lastSyncStep acc = some b → P b := by
  induction l generalizing acc with
  | nil => exact hacc
  | cons x l ih =>
    rw [List.foldl_cons]
    refine ih (lastSyncStep acc x) ?_ (fun y hy => hl y (List.mem_cons_of_mem x hy))
    intro b hb
    rcases lastSyncStep_cases acc x b hb with rfl | h
    · exact hl b (List.mem_cons_self b l)
    · exact hacc b h

/-- A success entry appended last with a maximal epoch is the watermark. -/
theorem getLastSuccessfulSync_last (st : StoreState) (dir : String) (e : SyncLogRow)
    (base : List SyncLogRow) (hlog : st.syncLog = base ++ [e])
    (hdir : e.direction = dir) (hst : e.status = "success")
    (hle : ∀ x ∈ base, x.created_at_epoch ≤ e.created_at_epoch) :
    getLastSuccessfulSync st dir = some e := by
  unfold getLastSuccessfulSync
  rw [hlog, List.filter_append]
  have he : (List.filter (fun x => x.direction = dir && x.status = "success") [e]) = [e] := by
    simp [hdir, hst]
  rw [he, List.foldl_append]
  have hbound : ∀ b, (List.filter (fun x => x.direction = dir && x.status = "success")
      base).foldl lastSyncStep none = some b → b.created_at_epoch ≤ e.created_at_epoch := by
    refine lastSyncStep_fold_le _ _ none (by intro b hb; cases hb) ?_
    intro x hx
    exact hle x (List.mem_filter.mp hx).1
  cases hacc : (List.filter (fun x => x.direction = dir && x.status = "success")
      base).foldl lastSyncStep none with
  | none => rfl
  | some b =>
    show lastSyncStep (some b) e = some e
    unfold lastSyncStep
    simp only []
    rw [if_pos (hbound b hacc)]

end DatabaseStore

namespace SyncEngine

theorem pullStep_syncLog (env : PullEnv) (now : Nat) (acc : StoreState × Nat)
    (f : String) : (pullStep env now acc f).1.syncLog = acc.1.syncLog := by
  unfold pullStep
  cases env.readFile f with
  | none => rfl
  | some c =>
    simp only []
    by_cases hc : c = ""
    · rw [if_pos hc]
    · rw [if_neg hc]
      cases MarkdownParser.toAssetInput f c with
      | none => rfl
      | some i => exact DatabaseStore.upsert_syncLog acc.1 i now

theorem pullFold_syncLog (env : PullEnv) (now : Nat) (fs : List String)
    (acc : StoreState × Nat) :
    (fs.foldl (pullStep env now) acc).1.syncLog = acc.1.syncLog := by
  induction fs generalizing acc with
  | nil => rfl
  | cons f fs ih =>
    rw [List.foldl_cons, ih (pullStep env now acc f), pullStep_syncLog]

/-- Every `pullFromL2` call appends exactly its own log row, tagged
`pull` with the call's clock value. -/
theorem pullFromL2_log (env : PullEnv) (st : StoreState) (now : Nat) :
    (pullFromL2 env st now).1.syncLog = st.syncLog ++ [(pullFromL2 env st now).2] ∧
    (pullFromL2 env st now).2.direction = "pull" ∧
    (pullFromL2 env st now).2.created_at_epoch = now := by
  simp only [pullFromL2]
  by_cases h1 : env.pullResult.success = false
  · rw [if_pos h1]
    exact ⟨rfl, rfl, rfl⟩
  · rw [if_neg h1]
    by_cases h2 : (((DatabaseStore.getLastSuccessfulSync st "pull").bind
        (fun e => e.git_commit_sha)).getD "" != "" &&
        ((DatabaseStore.getLastSuccessfulSync st "pull").bind
        (fun e => e.git_commit_sha)).getD "" == env.pullResult.commitSha.getD "") = true
    · rw [if_pos h2]
      exact ⟨rfl, rfl, rfl⟩
    · rw [if_neg h2]
      refine ⟨?_, rfl, rfl⟩
      rw [DatabaseStore.createSyncLog_syncLog, pullFold_syncLog]

/-- A `success` log row of a pull records a nonempty commit id equal to
the sha the adapter pull returned. -/
theorem pullFromL2_success_sha (env : PullEnv) (st : StoreState) (now : Nat) (c : String)
    (hs : (pullFromL2 env st now).2.status = "success")
    (hc : (pullFromL2 env st now).2.git_commit_sha = some c) :
    c ≠ "" ∧ env.pullResult.commitSha.getD "" = c := by
  simp only [pullFromL2] at hs hc
  by_cases h1 : env.pullResult.success = false
  · rw [if_pos h1] at hs
    exact absurd (show ("failed" : String) = "success" from hs) (by decide)
  · rw [if_neg h1] at hs hc
    by_cases h2 : (((DatabaseStore.getLastSuccessfulSync st "pull").bind
        (fun e => e.git_commit_sha)).getD "" != "" &&
        ((DatabaseStore.getLastSuccessfulSync st "pull").bind
        (fun e => e.git_commit_sha)).getD "" == env.pullResult.commitSha.getD "") = true
    · rw [if_pos h2] at hs
      exact absurd (show ("skipped" : String) = "success" from hs) (by decide)
    · rw [if_neg h2] at hc
      have hc2 : jsStrOpt (some (env.pullResult.commitSha.getD "")) = some c := hc
      simp only [jsStrOpt] at hc2
      by_cases hz : env.pullResult.commitSha.getD "" = ""
      · rw [if_pos hz] at hc2
        cases hc2
      · rw [if_neg hz] at hc2
        cases hc2
        exact ⟨hz, rfl⟩

/-- A second pull against an unchanged remote short-circuits. -/
theorem pullFromL2_skip (env : PullEnv) (st : StoreState) (now : Nat) (c : String)
    (e : SyncLogRow)
    (he : DatabaseStore.getLastSuccessfulSync st "pull" = some e)
    (hesha : e.git_commit_sha = some c) (hcne : c ≠ "")
    (hsucc : env.pullResult.success = true)
    (hsha : env.pullResult.commitSha = some c) :
    (pullFromL2 env st now).2.status = "skipped" ∧
    (pullFromL2 env st now).1.assets = st.assets := by
  simp only [pullFromL2]
  rw [he]
  rw [if_neg (by simp [hsucc])]
  have hcond : (((some e).bind (fun e => e.git_commit_sha)).getD "" != "" &&
      ((some e).bind (fun e => e.git_commit_sha)).getD "" ==
        env.pullResult.commitSha.getD "") = true := by
    simp [hesha, hsha, hcne]
  rw [if_pos hcond]
  exact ⟨rfl, rfl⟩

end SyncEngine

/-- C1: two consecutive `pullFromL2()` calls where the first records a
success watermark commit id and the adapter's second pull succeeds
returning that same commit id: the second call records a `skipped` entry
and upserts nothing, so no knowledge-asset row changes. -/
theorem C1_pull_monotonic (env₁ env₂ : SyncEngine.PullEnv) (st₀ : StoreState)
    (now₁ now₂ : Nat) (c : String)
    (hclock : ∀ e ∈ st₀.syncLog, e.created_at_epoch ≤ now₁)
    (hs : (SyncEngine.pullFromL2 env₁ st₀ now₁).2.status = "success")
    (hc : (SyncEngine.pullFromL2 env₁ st₀ now₁).2.git_commit_sha = some c)
    (h2 : env₂.pullResult.success = true)
    (h3 : env₂.pullResult.commitSha = some c) :
    (SyncEngine.pullFromL2 env₂ (SyncEngine.pullFromL2 env₁ st₀ now₁).1 now₂).2.status
      = "skipped" ∧
    (SyncEngine.pullFromL2 env₂ (SyncEngine.pullFromL2 env₁ st₀ now₁).1 now₂).1.assets
      = (SyncEngine.pullFromL2 env₁ st₀ now₁).1.assets := by
  have hlog := SyncEngine.pullFromL2_log env₁ st₀ now₁
  have hcne : c ≠ "" := (SyncEngine.pullFromL2_success_sha env₁ st₀ now₁ c hs hc).1
  have hwm : DatabaseStore.getLastSuccessfulSync (SyncEngine.pullFromL2 env₁ st₀ now₁).1 "pull"
      = some (SyncEngine.pullFromL2 env₁ st₀ now₁).2 := by
    refine DatabaseStore.getLastSuccessfulSync_last _ "pull" _ st₀.syncLog hlog.1
      hlog.2.1 hs ?_
    intro x hx
    rw [hlog.2.2]
    exact hclock x hx
  exact SyncEngine.pullFromL2_skip env₂ (SyncEngine.pullFromL2 env₁ st₀ now₁).1 now₂ c
    (SyncEngine.pullFromL2 env₁ st₀ now₁).2 hwm hc hcne h2 h3

/-- Witness for C1: two pulls of an unchanged empty remote at commit
`c1`. -/
theorem C1_witness :
    (SyncEngine.pullFromL2 pullEnvA (SyncEngine.pullFromL2 pullEnvA emptyStore 5).1 7).2.status
      = "skipped" ∧
    (SyncEngine.pullFromL2 pullEnvA (SyncEngine.pullFromL2 pullEnvA emptyStore 5).1 7).1.assets
      = (SyncEngine.pullFromL2 pullEnvA emptyStore 5).1.assets :=
  C1_pull_monotonic pullEnvA pullEnvA emptyStore 5 7 "c1"
    (by intro e he; cases he) rfl rfl rfl rfl

/- ============================================================ -/
/- C8: lock exclusivity                                         -/
/- ============================================================ -/

namespace LockModel

/-- A non-holder stepping against a fresh (same-window) lock stays a
non-holder and does not touch the file. -/
theorem lockStep_loser (now : Nat) (p : LockPC) (h : loserOK p) :
    (lockStep now (some now, p)).1 = some now ∧ loserOK (lockStep now (some now, p)).2 := by
  rcases h with rfl | rfl | rfl | rfl
  · exact ⟨rfl, Or.inr (Or.inl rfl)⟩
  · have : lockStep now (some now, LockPC.staleRead) = (some now, .done false) := by
      unfold lockStep
      simp [Nat.sub_self]
    rw [this]
    exact ⟨rfl, Or.inr (Or.inr (Or.inr rfl))⟩
  · exact ⟨rfl, Or.inr (Or.inr (Or.inr rfl))⟩
  · exact ⟨rfl, Or.inr (Or.inr (Or.inr rfl))⟩

/-- One step of process A preserves the race invariant. -/
theorem lockInv_stepA (now : Nat) (w : LockFile) (pa pb : LockPC)
    (h : LockInv now (w, pa, pb)) :
    LockInv now ((lockStep now (w, pa)).1, (lockStep now (w, pa)).2, pb) := by
  rcases h with ⟨hw, hpa, hpb⟩ | ⟨hw, hcase⟩
  · subst hw
    rcases hpa with rfl | rfl
    · exact Or.inl ⟨rfl, Or.inr rfl, hpb⟩
    · refine Or.inr ⟨rfl, Or.inl ⟨rfl, ?_⟩⟩
      rcases hpb with rfl | rfl
      · exact Or.inl rfl
      · exact Or.inr (Or.inr (Or.inl rfl))
  · subst hw
    rcases hcase with ⟨hpa, hlb⟩ | ⟨hpb, hla⟩
    · subst hpa
      exact Or.inr ⟨rfl, Or.inl ⟨rfl, hlb⟩⟩
    · have hs := lockStep_loser now pa hla
      exact Or.inr ⟨hs.1, Or.inr ⟨hpb, hs.2⟩⟩

/-- One step of process B preserves the race invariant. -/
theorem lockInv_stepB (now : Nat) (w : LockFile) (pa pb : LockPC)
    (h : LockInv now (w, pa, pb)) :
    LockInv now ((lockStep now (w, pb)).1, pa, (lockStep now (w, pb)).2) := by
  rcases h with ⟨hw, hpa, hpb⟩ | ⟨hw, hcase⟩
  · subst hw
    rcases hpb with rfl | rfl
    · exact Or.inl ⟨rfl, hpa, Or.inr rfl⟩
    · refine Or.inr ⟨rfl, Or.inr ⟨rfl, ?_⟩⟩
      rcases hpa with rfl | rfl
      · exact Or.inl rfl
      · exact Or.inr (Or.inr (Or.inl rfl))
  · subst hw
    rcases hcase with ⟨hpa, hlb⟩ | ⟨hpb, hla⟩
    · have hs := lockStep_loser now pb hlb
      exact Or.inr ⟨hs.1, Or.inl ⟨hpa, hs.2⟩⟩
    · subst hpb
      exact Or.inr ⟨rfl, Or.inr ⟨rfl, hla⟩⟩

/-- Any schedule preserves the race invariant. -/
theorem lockInv_runSched (now : Nat) (sched : List Bool)
    (s : LockFile × LockPC × LockPC) (h : LockInv now s) :
    LockInv now (runSched now sched s) := by
  induction sched generalizing s with
  | nil => exact h
  | cons b rest ih =>
    obtain ⟨w, pa, pb⟩ := s
    cases b
    · exact ih _ (lockInv_stepB now w pa pb h)
    · exact ih _ (lockInv_stepA now w pa pb h)

end LockModel

/-- Counterexample to C8 as stated: starting from a pre-existing stale
lock file (timestamp 0, clock 20000), the non-atomic stale-cleanup race
lets BOTH concurrent `acquireLock()` attempts succeed — attempt A unlinks
the fresh lock attempt B has just created. -/
theorem C8_counterexample :
    LockModel.succeeded (LockModel.runSched 20000
      [true, true, false, false, false, false, true, true]
      (some 0, .start, .start)).2.1 = true ∧
    LockModel.succeeded (LockModel.runSched 20000
      [true, true, false, false, false, false, true, true]
      (some 0, .start, .start)).2.2 = true := by decide

/-- C8 amended: starting from NO lock file, of two concurrent
`acquireLock()` attempts interleaved within one staleness window exactly
one succeeds; an attempt against a fresh lock fails, and an attempt
succeeds after `releaseLock()` or once the lock file's timestamp is more
than 10 seconds old. (With a pre-existing stale lock file the non-atomic
stale cleanup can let both attempts succeed.) -/
theorem C8_lock_exclusive_amended (now t : Nat) (w : LockModel.LockFile)
    (sched : List Bool) :
    (LockModel.finished (LockModel.runSched now sched (none, .start, .start)).2.1 = true →
     LockModel.finished (LockModel.runSched now sched (none, .start, .start)).2.2 = true →
     LockModel.succeeded (LockModel.runSched now sched (none, .start, .start)).2.1
       ≠ LockModel.succeeded (LockModel.runSched now sched (none, .start, .start)).2.2) ∧
    (now - t ≤ 10000 → (LockModel.acquireLock now (some t)).2 = .done false) ∧
    (LockModel.acquireLock now (LockModel.releaseLock w)).2 = .done true ∧
    (now - t > 10000 → (LockModel.acquireLock now (some t)).2 = .done true) := by
  refine ⟨?_, ?_, rfl, ?_⟩
  · intro hfa hfb
    have hinv := LockModel.lockInv_runSched now sched (none, .start, .start)
      (Or.inl ⟨rfl, Or.inl rfl, Or.inl rfl⟩)
    rcases hinv with ⟨_, hpa, hpb⟩ | ⟨_, hcase⟩
    · rcases hpa with hpa | hpa <;> rw [hpa] at hfa <;> cases hfa
    · rcases hcase with ⟨hpa, hlb⟩ | ⟨hpb, hla⟩
      · rw [hpa]
        rcases hlb with h | h | h | h <;> rw [h] at hfb ⊢
        · cases hfb
        · cases hfb
        · cases hfb
        · decide
      · rw [hpb]
        rcases hla with h | h | h | h <;> rw [h] at hfa ⊢
        · cases hfa
        · cases hfa
        · cases hfa
        · decide
  · intro h
    have h2 : LockModel.lockStep now (some t, .staleRead) = (some t, .done false) := by
      unfold LockModel.lockStep
      simp only []
      rw [if_neg (by omega)]
    show (LockModel.stepN now 4 (some t, .start)).2 = .done false
    rw [LockModel.stepN]
    rw [show LockModel.lockStep now (some t, LockModel.LockPC.start)
      = (some t, .staleRead) from rfl]
    rw [LockModel.stepN, h2]
    rfl
  · intro h
    have h2 : LockModel.lockStep now (some t, .staleRead) = (some t, .unlinkStale) := by
      unfold LockModel.lockStep
      simp only []
      rw [if_pos h]
    show (LockModel.stepN now 4 (some t, .start)).2 = .done true
    rw [LockModel.stepN]
    rw [show LockModel.lockStep now (some t, LockModel.LockPC.start)
      = (some t, .staleRead) from rfl]
    rw [LockModel.stepN, h2]
    rfl

/- ============================================================ -/
/- C7: toAssetInput                                             -/
/- ============================================================ -/

/-- C7: `toAssetInput(path, text)` returns `null` exactly when the parsed
frontmatter is absent or lacks a usable `type` or `name` (missing or
empty, JS falsiness); otherwise it returns an asset input whose
`product_line` defaults to `"general"` and whose `title` defaults to the
name when those fields are absent. -/
theorem C7_toAssetInput_spec (path content : String) :
    (MarkdownParser.toAssetInput path content = none ↔
      (MarkdownParser.parse content).1.elim True
        (fun fm => jsFalsyV (fm.lookup "type") = true ∨ jsFalsyV (fm.lookup "name") = true)) ∧
    (∀ fm inp, (MarkdownParser.parse content).1 = some fm →
      MarkdownParser.toAssetInput path content = some inp →
      inp.content = (MarkdownParser.parse content).2 ∧
      (fm.lookup "product_line" = none → inp.product_line = "general") ∧
      (fm.lookup "title" = none → inp.title = inp.name)) := by
  rcases hp : MarkdownParser.parse content with ⟨fm?, body⟩
  cases fm? with
  | none =>
    constructor
    · have hnone : MarkdownParser.toAssetInput path content = none := by
        unfold MarkdownParser.toAssetInput
        rw [hp]
      rw [hnone]
      simp
    · intro fm inp hfm _
      simp at hfm
  | some fm =>
    constructor
    · by_cases hf : (jsFalsyV (fm.lookup "type") || jsFalsyV (fm.lookup "name")) = true
      · have hnone : MarkdownParser.toAssetInput path content = none := by
          unfold MarkdownParser.toAssetInput
          rw [hp]
          exact if_pos hf
        rw [hnone]
        simp only [Option.elim]
        exact iff_of_true trivial (by simpa using hf)
      · have hne : MarkdownParser.toAssetInput path content ≠ none := by
          unfold MarkdownParser.toAssetInput
          rw [hp]
          intro hcon
          exact Option.noConfusion ((if_neg hf).symm.trans hcon)
        refine iff_of_false hne ?_
        simpa using hf
    · intro fm' inp hfm hinp
      simp only [] at hfm
      cases hfm
      unfold MarkdownParser.toAssetInput at hinp
      rw [hp] at hinp
      by_cases hf : (jsFalsyV (fm.lookup "type") || jsFalsyV (fm.lookup "name")) = true
      · exact absurd ((if_pos hf).symm.trans hinp) (by simp)
      · have h3 := (if_neg hf).symm.trans hinp
        have h4 := Option.some.inj h3
        subst h4
        refine ⟨rfl, ?_, ?_⟩
        · intro hplo
          show (if jsFalsyV (fm.lookup "product_line") = true then "general"
            else MarkdownParser.yamlToString (MarkdownParser.fmGet fm "product_line"))
            = "general"
          rw [hplo]
          rfl
        · intro hti
          show (if jsFalsyV (fm.lookup "title") = true
              then MarkdownParser.yamlToString (MarkdownParser.fmGet fm "name")
              else MarkdownParser.yamlToString (MarkdownParser.fmGet fm "title"))
            = MarkdownParser.yamlToString (MarkdownParser.fmGet fm "name")
          rw [hti]
          rfl

/-- Witness for C7: a file with only `type` and `name` gets the defaulted
`product_line` and `title`. -/
theorem C7_witness :
    (MarkdownParser.parse "---\ntype: pitfall\nname: x\n---\nbody").1 =
      some [("type", .str "pitfall"), ("name", .str "x")] ∧
    MarkdownParser.toAssetInput "a.md" "---\ntype: pitfall\nname: x\n---\nbody" =
      some { type := "pitfall", name := "x", product_line := "general", tags := some [],
             title := "x", content := "body", source_project := none,
             l2_path := some "a.md" } ∧
    ("general" : String) = "general" ∧ ("x" : String) = "x" :=
  ⟨by decide, by decide,
   ((C7_toAssetInput_spec "a.md" "---\ntype: pitfall\nname: x\n---\nbody").2
      [("type", .str "pitfall"), ("name", .str "x")]
      { type := "pitfall", name := "x", product_line := "general", tags := some [],
        title := "x", content := "body", source_project := none, l2_path := some "a.md" }
      (by decide) (by decide)).2.1 (by decide),
   ((C7_toAssetInput_spec "a.md" "---\ntype: pitfall\nname: x\n---\nbody").2
      [("type", .str "pitfall"), ("name", .str "x")]
      { type := "pitfall", name := "x", product_line := "general", tags := some [],
        title := "x", content := "body", source_project := none, l2_path := some "a.md" }
      (by decide) (by decide)).2.2 (by decide)⟩

/- ============================================================ -/
/- C5: search snippets                                          -/
/- ============================================================ -/

/-- A found index is a match, and the first one. -/
theorem firstMatchIdx_some (pat : List Char) (l : List Char) (i : Nat)
    (h : firstMatchIdx pat l = some i) :
    isPfx pat (l.drop i) = true ∧ ∀ j < i, isPfx pat (l.drop j) = false := by
  induction l generalizing i with
  | nil =>
    unfold firstMatchIdx at h
    by_cases hp : isPfx pat [] = true
    · rw [if_pos hp] at h
      cases h
      exact ⟨hp, by omega⟩
    · rw [if_neg hp] at h
      cases h
  | cons x t ih =>
    unfold firstMatchIdx at h
    by_cases hp : isPfx pat (x :: t) = true
    · rw [if_pos hp] at h
      cases h
      exact ⟨hp, by omega⟩
    · rw [if_neg hp] at h
      rcases Option.map_eq_some'.mp h with ⟨i', hi', rfl⟩
      rcases ih i' hi' with ⟨h1, h2⟩
      refine ⟨h1, ?_⟩
      intro j hj
      cases j with
      | zero => simpa using hp
      | succ j' =>
        rw [List.drop_succ_cons]
        exact h2 j' (by omega)

/-- No found index means no match anywhere. -/
theorem firstMatchIdx_none (pat : List Char) (l : List Char)
    (h : firstMatchIdx pat l = none) : ∀ j, isPfx pat (l.drop j) = false := by
  induction l with
  | nil =>
    unfold firstMatchIdx at h
    by_cases hp : isPfx pat [] = true
    · rw [if_pos hp] at h
      cases h
    · rw [if_neg hp] at h
      intro j
      rw [List.drop_nil]
      simpa using hp
  | cons x t ih =>
    unfold firstMatchIdx at h
    by_cases hp : isPfx pat (x :: t) = true
    · rw [if_pos hp] at h
      cases h
    · rw [if_neg hp] at h
      intro j
      cases j with
      | zero => simpa using hp
      | succ j' =>
        rw [List.drop_succ_cons]
        exact ih (by simpa using h) j'

/-- A nonempty pattern matching at `i` forces `i` inside the text. -/
theorem lt_length_of_isPfx (pat l : List Char) (i : Nat) (hne : pat ≠ [])
    (h : isPfx pat (l.drop i) = true) : i < l.length := by
  by_contra hge
  rw [List.drop_eq_nil_of_le (by omega)] at h
  rcases pat with _ | ⟨a, t⟩
  · exact hne rfl
  · simp [isPfx] at h

namespace SearchService

/-- Characterisation of a successful keyword scan. -/
theorem bmFold_some (l : List Char) (kws : List (List Char)) (acc : Option Nat) :
    ∀ b, kws.foldl (bmStep l) acc = some b →
      (acc = some b ∨ ∃ k ∈ kws, firstMatchIdx k l = some b) ∧
      (∀ b₀, acc = some b₀ → b ≤ b₀) ∧
      (∀ k ∈ kws, ∀ i, firstMatchIdx k l = some i → b ≤ i) := by
  induction kws generalizing acc with
  | nil =>
    intro b hb
    simp only [List.foldl_nil] at hb
    refine ⟨Or.inl hb, ?_, by simp⟩
    intro b₀ h₀
    rw [hb] at h₀
    cases h₀
    omega
  | cons k kws ih =>
    intro b hb
    rw [List.foldl_cons] at hb
    rcases ih (bmStep l acc k) b hb with ⟨horigin, hleacc, hlerest⟩
    cases hk : firstMatchIdx k l with
    | none =>
      have hstep : bmStep l acc k = acc := by
        unfold bmStep
        rw [hk]
      rw [hstep] at horigin hleacc
      refine ⟨?_, hleacc, ?_⟩
      · rcases horigin with h | ⟨k', hk', hv⟩
        · exact Or.inl h
        · exact Or.inr ⟨k', List.mem_cons_of_mem k hk', hv⟩
      · intro k' hk' i hi
        rcases List.mem_cons.mp hk' with rfl | hmem
        · rw [hk] at hi
          cases hi
        · exact hlerest k' hmem i hi
    | some idx =>
      cases hacc : acc with
      | none =>
        have hstep : bmStep l (none : Option Nat) k = some idx := by
          unfold bmStep
          rw [hk]
        rw [hacc] at horigin hleacc
        rw [hstep] at horigin hleacc
        refine ⟨?_, ?_, ?_⟩
        · rcases horigin with h | ⟨k', hk', hv⟩
          · cases h
            exact Or.inr ⟨k, List.mem_cons_self k kws, hk⟩
          · exact Or.inr ⟨k', List.mem_cons_of_mem k hk', hv⟩
        · intro b₀ h₀
          cases h₀
        · intro k' hk' i hi
          rcases List.mem_cons.mp hk' with rfl | hmem
          · rw [hk] at hi
            cases hi
            exact hleacc _ rfl
          · exact hlerest k' hmem i hi
      | some b0 =>
        have hstep : bmStep l (some b0) k = if idx < b0 then some idx else some b0 := by
          unfold bmStep
          rw [hk]
        rw [hacc] at horigin hleacc
        rw [hstep] at horigin hleacc
        by_cases hlt : idx < b0
        · rw [if_pos hlt] at horigin hleacc
          have hbm : b ≤ idx := hleacc idx rfl
          refine ⟨?_, ?_, ?_⟩
          · rcases horigin with h | ⟨k', hk', hv⟩
            · cases h
              exact Or.inr ⟨k, List.mem_cons_self k kws, hk⟩
            · exact Or.inr ⟨k', List.mem_cons_of_mem k hk', hv⟩
          · intro b₀ h₀
            cases h₀
            omega
          · intro k' hk' i hi
            rcases List.mem_cons.mp hk' with rfl | hmem
            · rw [hk] at hi
              cases hi
              omega
            · exact hlerest k' hmem i hi
        · rw [if_neg hlt] at horigin hleacc
          have hbm : b ≤ b0 := hleacc b0 rfl
          refine ⟨?_, ?_, ?_⟩
          · rcases horigin with h | ⟨k', hk', hv⟩
            · cases h
              exact Or.inl rfl
            · exact Or.inr ⟨k', List.mem_cons_of_mem k hk', hv⟩
          · intro b₀ h₀
            cases h₀
            omega
          · intro k' hk' i hi
            rcases List.mem_cons.mp hk' with rfl | hmem
            · rw [hk] at hi
              cases hi
              omega
            · exact hlerest k' hmem i hi

/-- A failed keyword scan means no keyword occurs. -/
theorem bmFold_none (l : List Char) (kws : List (List Char)) (acc : Option Nat)
    (h : kws.foldl (bmStep l) acc = none) :
    acc = none ∧ ∀ k ∈ kws, firstMatchIdx k l = none := by
  induction kws generalizing acc with
  | nil => exact ⟨h, by simp⟩
  | cons k kws ih =>
    rw [List.foldl_cons] at h
    rcases ih (bmStep l acc k) h with ⟨hstep, hrest⟩
    cases hk : firstMatchIdx k l with
    | none =>
      have hid : bmStep l acc k = acc := by
        unfold bmStep
        rw [hk]
      rw [hid] at hstep
      refine ⟨hstep, ?_⟩
      intro k' hk'
      rcases List.mem_cons.mp hk' with rfl | hmem
      · exact hk
      · exact hrest k' hmem
    | some idx =>
      exfalso
      unfold bmStep at hstep
      rw [hk] at hstep
      rcases acc with _ | b0
      · exact Option.noConfusion hstep
      · have hstep2 : (if idx < b0 then some idx else some b0) = (none : Option Nat) := hstep
        by_cases hlt : idx < b0
        · rw [if_pos hlt] at hstep2
          cases hstep2
        · rw [if_neg hlt] at hstep2
          cases hstep2

/-- If no keyword occurs, the scan fails. -/
theorem bmFold_none_of (l : List Char) (kws : List (List Char)) (acc : Option Nat)
    (h : ∀ k ∈ kws, firstMatchIdx k l = none) :
    kws.foldl (bmStep l) acc = acc := by
  induction kws generalizing acc with
  | nil => rfl
  | cons k kws ih =>
    rw [List.foldl_cons]
    have hstep : bmStep l acc k = acc := by
      unfold bmStep
      rw [h k (List.mem_cons_self k kws)]
    rw [hstep]
    exact ih acc (fun k' hk' => h k' (List.mem_cons_of_mem k hk'))

/-- The code's best-match index is the spec's earliest keyword match. -/
theorem bestMatchOf_earliest (kws : List (List Char)) (l : List Char) (b : Nat)
    (h : bestMatchOf kws l = some b) : specEarliestMatch kws l b := by
  rcases bmFold_some l kws none b h with ⟨horigin, _, hle⟩
  rcases horigin with hcon | ⟨k, hk, hv⟩
  · cases hcon
  · refine ⟨⟨k, hk, (firstMatchIdx_some k l b hv).1⟩, ?_⟩
    intro j hj k' hk' hocc
    cases hfi : firstMatchIdx k' l with
    | none =>
      have := firstMatchIdx_none k' l hfi j
      rw [hocc] at this
      cases this
    | some i =>
      have hmin := (firstMatchIdx_some k' l i hfi).2
      have hile : i ≤ j := by
        by_contra hgt
        have := hmin j (by omega)
        rw [hocc] at this
        cases this
      have := hle k' hk' i hfi
      omega

/-- Conversely, the spec's earliest match is what the code computes. -/
theorem earliest_bestMatchOf (kws : List (List Char)) (l : List Char) (b : Nat)
    (h : specEarliestMatch kws l b) : bestMatchOf kws l = some b := by
  cases hbm : bestMatchOf kws l with
  | none =>
    exfalso
    rcases h.1 with ⟨k, hk, hocc⟩
    have := firstMatchIdx_none k l ((bmFold_none l kws none hbm).2 k hk) b
    rw [hocc] at this
    cases this
  | some b' =>
    have h' := bestMatchOf_earliest kws l b' hbm
    have h1 : b ≤ b' := by
      by_contra hgt
      rcases h'.1 with ⟨k, hk, hocc⟩
      have := h.2 b' (by omega) k hk
      exact this hocc
    have h2 : b' ≤ b := by
      by_contra hgt
      rcases h.1 with ⟨k, hk, hocc⟩
      have := h'.2 b (by omega) k hk
      exact this hocc
    have : b = b' := by omega
    rw [this]

/-- Keywords are longer than two characters, hence nonempty. -/
theorem keywordsOf_ne_nil (query : String) (k : List Char) (hk : k ∈ keywordsOf query) :
    k ≠ [] := by
  unfold keywordsOf at hk
  have := (List.mem_filter.mp hk).2
  intro hnil
  rw [hnil] at this
  simp at this

end SearchService

/-- Counterexample to C5 as stated: when no keyword occurs, the snippet is
the first 100 characters FOLLOWED BY an ellipsis, not the first 100
characters. -/
theorem C5_counterexample :
    SearchService.extractSnippet "hello" "world" 50 = "hello..." ∧
    SearchService.extractSnippet "hello" "world" 50 ≠ "hello" := by decide

/-- C5 amended: for an empty content the snippet is the empty string (the
guard clause fires before any keyword scan); for nonempty content the
snippet is the whitespace-trimmed ±50-character window of the content
around the first case-insensitive occurrence of any query keyword longer
than 2 characters, prefixed/suffixed with an ellipsis when truncated at
that end, and when no such keyword occurs in the content (including when
the query has no keyword longer than 2 characters) the snippet is the
first 100 characters of the content followed by an ellipsis. -/
theorem C5_extractSnippet_amended (content query : String) (hq : query ≠ "") :
    (content = "" → SearchService.extractSnippet content query 50 = "") ∧
    (content ≠ "" →
      (specNoMatch (SearchService.keywordsOf query) (toLowerL content.data) →
        SearchService.extractSnippet content query 50 =
          (⟨content.data.take 100⟩ : String) ++ "...") ∧
      (∀ b, specEarliestMatch (SearchService.keywordsOf query) (toLowerL content.data) b →
        SearchService.extractSnippet content query 50 =
          ⟨jsTrim ((if 0 < b - 50 then "...".data else []) ++
            ((content.data.take (min content.data.length (b + 50))).drop (b - 50)) ++
            (if min content.data.length (b + 50) < content.data.length
              then "...".data else []))⟩)) := by
  refine ⟨?_, ?_⟩
  · intro hce
    simp only [SearchService.extractSnippet]
    rw [if_pos (by simp [hce])]
  intro hc
  constructor
  · intro hnone
    simp only [SearchService.extractSnippet]
    rw [if_neg (by simp [hc, hq])]
    by_cases hkws : (SearchService.keywordsOf query).length = 0
    · rw [if_pos hkws]
    · rw [if_neg hkws]
      have hall : ∀ k ∈ SearchService.keywordsOf query,
          firstMatchIdx k (toLowerL content.data) = none := by
        intro k hk
        cases hfi : firstMatchIdx k (toLowerL content.data) with
        | none => rfl
        | some i =>
          exfalso
          have hocc := (firstMatchIdx_some k _ i hfi).1
          have hlen : i < (toLowerL content.data).length :=
            lt_length_of_isPfx k _ i (SearchService.keywordsOf_ne_nil query k hk) hocc
          exact hnone i hlen k hk hocc
      have hbm : SearchService.bestMatchOf (SearchService.keywordsOf query)
          (toLowerL content.data) = none :=
        SearchService.bmFold_none_of _ _ none hall
      rw [hbm]
  · intro b hmatch
    simp only [SearchService.extractSnippet]
    rw [if_neg (by simp [hc, hq])]
    have hkws : ¬((SearchService.keywordsOf query).length = 0) := by
      rcases hmatch.1 with ⟨k, hk, _⟩
      intro hlen
      rw [List.length_eq_zero.mp hlen] at hk
      cases hk
    rw [if_neg hkws]
    rw [SearchService.earliest_bestMatchOf _ _ b hmatch]

/-- Witness for C5 (amended): an empty content, a no-match query and a
window match at index 4. -/
theorem C5_witness :
    SearchService.extractSnippet "" "worldly" 50 = "" ∧
    SearchService.extractSnippet "hello" "worldly" 50 = "hello..." ∧
    SearchService.extractSnippet "abc hello" "hello" 50 = "abc hello" :=
  ⟨(C5_extractSnippet_amended "" "worldly" (by decide)).1 rfl,
   ((C5_extractSnippet_amended "hello" "worldly" (by decide)).2 (by decide)).1 (by decide),
   (((C5_extractSnippet_amended "abc hello" "hello" (by decide)).2 (by decide)).2 4
     (by decide)).trans (by decide)⟩

/-- Witness for C8 (amended): a length-4 alternating schedule from no
lock, a fresh lock at `t = 5` probed at `now = 6`, and a stale lock at
`t = 0` probed at `now = 20000`. -/
theorem C8_witness :
    (LockModel.finished (LockModel.runSched 6 [true, false, true, false]
      (none, .start, .start)).2.1 = true) ∧
    (LockModel.succeeded (LockModel.runSched 6 [true, false, true, false]
      (none, .start, .start)).2.1
      ≠ LockModel.succeeded (LockModel.runSched 6 [true, false, true, false]
        (none, .start, .start)).2.2) ∧
    (LockModel.acquireLock 6 (some 5)).2 = .done false ∧
    (LockModel.acquireLock 20000 (some 0)).2 = .done true :=
  ⟨by decide,
   (C8_lock_exclusive_amended 6 5 none [true, false, true, false]).1 (by decide) (by decide),
   (C8_lock_exclusive_amended 6 5 none [true, false, true, false]).2.1 (by decide),
   (C8_lock_exclusive_amended 20000 0 none [true, false, true, false]).2.2.2 (by decide)⟩

/- ============================================================ -/
/- Round-trip lemma stack (C3): trimming                        -/
/- ============================================================ -/

theorem trimL_cons (c : Char) (l : List Char) :
    trimL (c :: l) = if c.isWhitespace then trimL l else c :: l := by
  simp [trimL, List.dropWhile_cons]

theorem trimL_eq_nil_iff (l : List Char) :
    trimL l = [] ↔ ∀ c ∈ l, c.isWhitespace = true := by
  simp [trimL, List.dropWhile_eq_nil_iff]

theorem dropWhile_ws_idem (l : List Char) :
    (l.dropWhile Char.isWhitespace).dropWhile Char.isWhitespace
      = l.dropWhile Char.isWhitespace := by
  induction l with
  | nil => rfl
  | cons a l ih =>
    by_cases h : a.isWhitespace
    · rw [List.dropWhile_cons_of_pos h]; exact ih
    · rw [List.dropWhile_cons_of_neg h, List.dropWhile_cons_of_neg h]

theorem trimR_eq_nil_iff (l : List Char) :
    trimR l = [] ↔ ∀ c ∈ l, c.isWhitespace = true := by
  constructor
  · intro h c hc
    have h2 : l.reverse.dropWhile Char.isWhitespace = [] := by
      have := congrArg List.reverse h
      simpa [trimR] using this
    exact (List.dropWhile_eq_nil_iff.mp h2) c (List.mem_reverse.mpr hc)
  · intro h
    have h2 : l.reverse.dropWhile Char.isWhitespace = [] :=
      List.dropWhile_eq_nil_iff.mpr (fun c hc => h c (List.mem_reverse.mp hc))
    simp [trimR, h2]

theorem trimR_concat_of_ws (c : Char) (l : List Char) (h : c.isWhitespace = true) :
    trimR (l ++ [c]) = trimR l := by
  simp [trimR, List.dropWhile_cons, h]

theorem trimR_concat_of_not_ws (c : Char) (l : List Char) (h : c.isWhitespace = false) :
    trimR (l ++ [c]) = l ++ [c] := by
  simp [trimR, List.dropWhile_cons, h]

theorem trimR_append (a b : List Char) :
    trimR (a ++ b) = if trimR b = [] then trimR a else a ++ trimR b := by
  by_cases hb : trimR b = []
  · have hbe : b.reverse.dropWhile Char.isWhitespace = [] := by
      have := congrArg List.reverse hb
      simpa [trimR] using this
    rw [if_pos hb]
    simp [trimR, List.dropWhile_append, hbe]
  · have hbe : (b.reverse.dropWhile Char.isWhitespace).isEmpty = false := by
      cases h : b.reverse.dropWhile Char.isWhitespace with
      | nil => exact absurd (by simp [trimR, h]) hb
      | cons x t => rfl
    rw [if_neg hb]
    simp [trimR, List.dropWhile_append, hbe]

theorem trimR_cons (c : Char) (l : List Char) :
    trimR (c :: l)
      = if trimR l = [] then (if c.isWhitespace then [] else [c]) else c :: trimR l := by
  have h0 : (c :: l) = [c] ++ l := rfl
  rw [h0, trimR_append]
  by_cases h : trimR l = []
  · rw [if_pos h, if_pos h]
    by_cases hc : c.isWhitespace
    · rw [if_pos hc]; simp [trimR, List.dropWhile_cons, hc]
    · rw [if_neg hc]; simp [trimR, List.dropWhile_cons, hc]
  · rw [if_neg h, if_neg h]; rfl

theorem trimR_idem (l : List Char) : trimR (trimR l) = trimR l := by
  unfold trimR
  rw [List.reverse_reverse, dropWhile_ws_idem]

theorem trimL_trimR_comm (l : List Char) : trimL (trimR l) = trimR (trimL l) := by
  induction l with
  | nil => rfl
  | cons c l ih =>
    by_cases hc : c.isWhitespace
    · rw [trimR_cons]
      by_cases h : trimR l = []
      · rw [if_pos h, if_pos hc]
        have hall : ∀ x ∈ l, x.isWhitespace = true := (trimR_eq_nil_iff l).mp h
        have htl : trimL l = [] := (trimL_eq_nil_iff l).mpr hall
        rw [trimL_cons, if_pos hc, htl]
        rfl
      · rw [if_neg h, trimL_cons, if_pos hc, trimL_cons, if_pos hc, ih]
    · have hR : trimR (trimL (c :: l)) = trimR (c :: l) := by
        rw [trimL_cons, if_neg hc]
      rw [hR, trimR_cons]
      by_cases h : trimR l = []
      · rw [if_pos h, if_neg hc, trimL_cons, if_neg hc]
      · rw [if_neg h, trimL_cons, if_neg hc]

theorem jsTrim_eq_trimL_trimR (l : List Char) : jsTrim l = trimL (trimR l) :=
  (trimL_trimR_comm l).symm

theorem jsTrim_cons_ws (c : Char) (l : List Char) (h : c.isWhitespace = true) :
    jsTrim (c :: l) = jsTrim l := by
  unfold jsTrim
  rw [trimL_cons, if_pos h]

theorem jsTrim_concat_ws (c : Char) (l : List Char) (h : c.isWhitespace = true) :
    jsTrim (l ++ [c]) = jsTrim l := by
  rw [jsTrim_eq_trimL_trimR, jsTrim_eq_trimL_trimR, trimR_concat_of_ws c l h]

theorem jsTrim_wrap (a b : Char) (x : List Char) (ha : a.isWhitespace = false)
    (hb : b.isWhitespace = false) : jsTrim ((a :: x) ++ [b]) = (a :: x) ++ [b] := by
  rw [jsTrim_eq_trimL_trimR, trimR_concat_of_not_ws b (a :: x) hb]
  have h2 : (a :: x) ++ [b] = a :: (x ++ [b]) := rfl
  rw [h2, trimL_cons, ha]
  simp

/- ============================================================ -/
/- Round-trip lemma stack (C3): splitting and matching          -/
/- ============================================================ -/

theorem splitOnC_no_sep (sep : Char) (l : List Char) (h : ∀ x ∈ l, x ≠ sep) :
    splitOnC sep l = [l] := by
  induction l with
  | nil => rfl
  | cons x t ih =>
    have hx : x ≠ sep := h x (List.mem_cons_self x t)
    have ht := ih (fun y hy => h y (List.mem_cons_of_mem x hy))
    simp [splitOnC, hx, ht]

theorem splitOnC_append_sep (sep : Char) (l r : List Char) (h : ∀ x ∈ l, x ≠ sep) :
    splitOnC sep (l ++ sep :: r) = l :: splitOnC sep r := by
  induction l with
  | nil => simp [splitOnC]
  | cons x t ih =>
    have hx : x ≠ sep := h x (List.mem_cons_self x t)
    have ht := ih (fun y hy => h y (List.mem_cons_of_mem x hy))
    rw [List.cons_append]
    simp [splitOnC, hx, ht]

theorem splitOnC_joinC (sep : Char) (L : List (List Char)) (hL : L ≠ [])
    (h : ∀ li ∈ L, ∀ x ∈ li, x ≠ sep) :
    splitOnC sep (joinC sep L) = L := by
  induction L with
  | nil => exact absurd rfl hL
  | cons l ls ih =>
    cases ls with
    | nil =>
      have hj : joinC sep [l] = l := rfl
      rw [hj]
      exact splitOnC_no_sep sep l (h l (List.mem_cons_self l []))
    | cons l₂ ls₂ =>
      have hj : joinC sep (l :: l₂ :: ls₂) = l ++ sep :: joinC sep (l₂ :: ls₂) := rfl
      rw [hj, splitOnC_append_sep sep l _ (h l (List.mem_cons_self l _))]
      rw [ih (by simp) (fun li hli x hx => h li (List.mem_cons_of_mem l hli) x hx)]

theorem charIdx_append (c : Char) (l₁ l₂ : List Char) (h : c ∉ l₁) :
    charIdx c (l₁ ++ c :: l₂) = some l₁.length := by
  induction l₁ with
  | nil => simp [charIdx]
  | cons x t ih =>
    have hx : x ≠ c := fun he => h (he ▸ List.mem_cons_self x t)
    have ht := ih (fun hm => h (List.mem_cons_of_mem x hm))
    rw [List.cons_append]
    simp [charIdx, hx, ht]

theorem isPfx_append_self (p r : List Char) : isPfx p (p ++ r) = true := by
  induction p with
  | nil => rfl
  | cons a as ih => simp [isPfx, ih]

theorem firstMatchIdx_self (p r : List Char) (hp : p ≠ []) :
    firstMatchIdx p (p ++ r) = some 0 := by
  cases p with
  | nil => exact absurd rfl hp
  | cons a as =>
    rw [List.cons_append]
    have hpfx : isPfx (a :: as) (a :: (as ++ r)) = true := isPfx_append_self (a :: as) r
    simp [firstMatchIdx, hpfx]

theorem isPfx_fmDelim_cons_false (X : List Char) (h : X.head? ≠ some '-') :
    isPfx fmDelim ('\n' :: X) = false := by
  cases X with
  | nil => rfl
  | cons d Y =>
    have hd : d ≠ '-' := fun he => h (by simp [he])
    simp [fmDelim, isPfx, Ne.symm hd]

theorem firstMatchIdx_fmDelim_cons_nl (X : List Char) (h : X.head? ≠ some '-') :
    firstMatchIdx fmDelim ('\n' :: X) = (firstMatchIdx fmDelim X).map (· + 1) := by
  have hpfx := isPfx_fmDelim_cons_false X h
  simp [firstMatchIdx, hpfx]

theorem firstMatchIdx_prepend (l rest : List Char) (h : ∀ c ∈ l, c ≠ '\n') :
    firstMatchIdx fmDelim (l ++ rest) = (firstMatchIdx fmDelim rest).map (· + l.length) := by
  induction l with
  | nil =>
    rw [List.nil_append]
    cases h0 : firstMatchIdx fmDelim rest <;> simp [h0]
  | cons c t ih =>
    have hc : c ≠ '\n' := h c (List.mem_cons_self c t)
    have hpfx : isPfx fmDelim (c :: (t ++ rest)) = false := by
      simp [fmDelim, isPfx, Ne.symm hc]
    have ht := ih (fun y hy => h y (List.mem_cons_of_mem c hy))
    rw [List.cons_append]
    cases hrest : firstMatchIdx fmDelim rest with
    | none => simp [firstMatchIdx, hpfx, ht, hrest]
    | some i => simp [firstMatchIdx, hpfx, ht, hrest, Nat.add_assoc]

theorem head_append_left (l r : List Char) (h : l ≠ []) : (l ++ r).head? = l.head? := by
  cases l with
  | nil => exact absurd rfl h
  | cons x t => rfl

theorem joinC_ne_nil (sep : Char) (l : List Char) (ls : List (List Char)) (h : l ≠ []) :
    joinC sep (l :: ls) ≠ [] := by
  cases ls with
  | nil => exact h
  | cons a as =>
    have hj : joinC sep (l :: a :: as) = l ++ sep :: joinC sep (a :: as) := rfl
    rw [hj]
    cases l with
    | nil => exact absurd rfl h
    | cons x t => simp

theorem joinC_head (sep : Char) (l : List Char) (ls : List (List Char)) (h : l ≠ []) :
    (joinC sep (l :: ls)).head? = l.head? := by
  cases ls with
  | nil => rfl
  | cons a as =>
    have hj : joinC sep (l :: a :: as) = l ++ sep :: joinC sep (a :: as) := rfl
    rw [hj]
    exact head_append_left l _ h

theorem firstMatchIdx_joinC : ∀ (L : List (List Char)) (T : List Char),
    (∀ li ∈ L, li ≠ []) → (∀ li ∈ L, ∀ c ∈ li, c ≠ '\n') →
    (∀ li ∈ L, li.head? ≠ some '-') →
    firstMatchIdx fmDelim (joinC '\n' L ++ (fmDelim ++ T)) = some (joinC '\n' L).length := by
  intro L
  induction L with
  | nil =>
    intro T _ _ _
    have h0 : joinC '\n' ([] : List (List Char)) = [] := rfl
    rw [h0, List.nil_append, firstMatchIdx_self fmDelim T (by decide)]
    rfl
  | cons l₁ L' ih =>
    intro T hne hnl hhd
    cases L' with
    | nil =>
      have hj : joinC '\n' [l₁] = l₁ := rfl
      rw [hj, firstMatchIdx_prepend l₁ (fmDelim ++ T) (hnl l₁ (List.mem_cons_self l₁ []))]
      rw [firstMatchIdx_self fmDelim T (by decide)]
      simp
    | cons l₂ L'' =>
      have hj : joinC '\n' (l₁ :: l₂ :: L'') = l₁ ++ '\n' :: joinC '\n' (l₂ :: L'') := rfl
      have hmem₁ : l₁ ∈ l₁ :: l₂ :: L'' := List.mem_cons_self l₁ _
      have hmem₂ : l₂ ∈ l₁ :: l₂ :: L'' := List.mem_cons_of_mem l₁ (List.mem_cons_self l₂ _)
      rw [hj, List.append_assoc, firstMatchIdx_prepend l₁ _ (hnl l₁ hmem₁), List.cons_append]
      have hXhd : (joinC '\n' (l₂ :: L'') ++ (fmDelim ++ T)).head? ≠ some '-' := by
        rw [head_append_left _ _ (joinC_ne_nil '\n' l₂ L'' (hne l₂ hmem₂))]
        rw [joinC_head '\n' l₂ L'' (hne l₂ hmem₂)]
        exact hhd l₂ hmem₂
      rw [firstMatchIdx_fmDelim_cons_nl _ hXhd]
      rw [ih T (fun li hli => hne li (List.mem_cons_of_mem l₁ hli))
        (fun li hli => hnl li (List.mem_cons_of_mem l₁ hli))
        (fun li hli => hhd li (List.mem_cons_of_mem l₁ hli))]
      simp [Nat.add_comm]

/- ============================================================ -/
/- Round-trip lemma stack (C3): frontmatter block extraction    -/
/- ============================================================ -/

theorem trimL_no_ws (l : List Char) (h : ∀ x ∈ l, x.isWhitespace = false) :
    trimL l = l := by
  cases l with
  | nil => rfl
  | cons c t =>
    rw [trimL_cons, h c (List.mem_cons_self c t)]
    simp

theorem trimR_no_ws (l : List Char) (h : ∀ x ∈ l, x.isWhitespace = false) :
    trimR l = l := by
  induction l with
  | nil => rfl
  | cons c t ih =>
    have hc := h c (List.mem_cons_self c t)
    have ht := ih (fun y hy => h y (List.mem_cons_of_mem c hy))
    rw [trimR_cons, ht, hc]
    by_cases h0 : t = []
    · subst h0; simp
    · rw [if_neg h0]

theorem jsTrim_no_ws (l : List Char) (h : ∀ x ∈ l, x.isWhitespace = false) :
    jsTrim l = l := by
  unfold jsTrim
  rw [trimL_no_ws l h, trimR_no_ws l h]

theorem fmMatch_block (L : List (List Char)) (T : List Char)
    (hne : ∀ li ∈ L, li ≠ [])
    (hnl : ∀ li ∈ L, ∀ c ∈ li, c ≠ '\n')
    (hhd : ∀ li ∈ L, li.head? ≠ some '-') :
    fmMatch ("---\n".data ++ (joinC '\n' L ++ (fmDelim ++ T)))
      = some (joinC '\n' L, T) := by
  have hpfx : isPfx ['-', '-', '-', '\n']
      ("---\n".data ++ (joinC '\n' L ++ (fmDelim ++ T))) = true := by
    have h0 : "---\n".data = ['-', '-', '-', '\n'] := rfl
    rw [h0]
    exact isPfx_append_self _ _
  have hdrop : ("---\n".data ++ (joinC '\n' L ++ (fmDelim ++ T))).drop 4
      = joinC '\n' L ++ (fmDelim ++ T) := by
    have h0 : "---\n".data ++ (joinC '\n' L ++ (fmDelim ++ T))
        = (['-', '-', '-', '\n'] : List Char) ++ (joinC '\n' L ++ (fmDelim ++ T)) := rfl
    rw [h0]
    exact List.drop_left' rfl
  have htake : (joinC '\n' L ++ (fmDelim ++ T)).take (joinC '\n' L).length
      = joinC '\n' L := List.take_left' rfl
  have hdrop2 : (joinC '\n' L ++ (fmDelim ++ T)).drop ((joinC '\n' L).length + 5) = T := by
    have h1 : joinC '\n' L ++ (fmDelim ++ T) = (joinC '\n' L ++ fmDelim) ++ T :=
      (List.append_assoc _ _ _).symm
    rw [h1]
    exact List.drop_left' (by simp [fmDelim])
  unfold fmMatch
  rw [if_pos hpfx, hdrop, firstMatchIdx_joinC L T hne hnl hhd]
  simp [htake, hdrop2]

theorem jsTrim_body (body : List Char) (hb : jsTrim body = body) :
    jsTrim ('\n' :: (body ++ ['\n'])) = body := by
  rw [jsTrim_cons_ws '\n' _ (by decide), jsTrim_concat_ws '\n' body (by decide), hb]

/- ============================================================ -/
/- Round-trip lemma stack (C3): one key-value line              -/
/- ============================================================ -/

theorem parseLine_keyval (acc : Yaml) (k : String) (v : List Char)
    (hk0 : k.data ≠ [])
    (hkw : ∀ c ∈ k.data, c.isWhitespace = false)
    (hkc : ':' ∉ k.data)
    (hkh : k.data.head? ≠ some '#') :
    parseLine acc (k.data ++ ':' :: ' ' :: v) = yamlInsert acc k (coerceVal (jsTrim v)) := by
  obtain ⟨c, kd, hkd⟩ : ∃ c kd, k.data = c :: kd := by
    cases hkd : k.data with
    | nil => exact absurd hkd hk0
    | cons c kd => exact ⟨c, kd, rfl⟩
  have hcws : c.isWhitespace = false := hkw c (by rw [hkd]; exact List.mem_cons_self c kd)
  have hcsharp : c ≠ '#' := fun he => hkh (by rw [hkd, he]; rfl)
  have hjk : jsTrim k.data = k.data := jsTrim_no_ws k.data hkw
  have hgrp : (k.data ++ [':']) ++ (' ' :: v) = k.data ++ ':' :: ' ' :: v := by
    rw [List.append_assoc]
    rfl
  have htl : trimL (k.data ++ ':' :: ' ' :: v) = k.data ++ ':' :: ' ' :: v := by
    rw [hkd, List.cons_append, trimL_cons, hcws]
    simp
  have ht : jsTrim (k.data ++ ':' :: ' ' :: v) = trimR (k.data ++ ':' :: ' ' :: v) := by
    unfold jsTrim
    rw [htl]
  by_cases hB : trimR (' ' :: v) = []
  · have hvws : ∀ x ∈ v, x.isWhitespace = true :=
      fun x hx => (trimR_eq_nil_iff _).mp hB x (List.mem_cons_of_mem _ hx)
    have hjv : jsTrim v = [] := by
      unfold jsTrim
      rw [(trimL_eq_nil_iff v).mpr hvws]
      rfl
    have hT : trimR (k.data ++ ':' :: ' ' :: v) = k.data ++ [':'] := by
      rw [← hgrp, trimR_append, if_pos hB, trimR_concat_of_not_ws ':' k.data (by decide)]
    have hie : (k.data ++ [':']).isEmpty = false := by rw [hkd]; rfl
    have hhd2 : (k.data ++ [':']).head? = some c := by rw [hkd]; rfl
    have hch : charIdx ':' (k.data ++ [':']) = some k.data.length :=
      charIdx_append ':' k.data [] hkc
    have htake : (k.data ++ [':']).take k.data.length = k.data := List.take_left' rfl
    have hdropv : (k.data ++ [':']).drop (k.data.length + 1) = [] := by
      apply List.drop_eq_nil_of_le
      simp
    simp only [parseLine, ht, hT, hie, hhd2, hch, htake, hdropv, hjk, hjv]
    simp [hcsharp]
    rfl
  · have hw : jsTrim (trimR (' ' :: v)) = jsTrim v := by
      unfold jsTrim
      rw [trimL_trimR_comm (' ' :: v), trimR_idem, trimL_cons]
      simp
    have hT : trimR (k.data ++ ':' :: ' ' :: v) = k.data ++ ':' :: trimR (' ' :: v) := by
      rw [← hgrp, trimR_append, if_neg hB, List.append_assoc]
      rfl
    have hie : (k.data ++ ':' :: trimR (' ' :: v)).isEmpty = false := by rw [hkd]; rfl
    have hhd2 : (k.data ++ ':' :: trimR (' ' :: v)).head? = some c := by rw [hkd]; rfl
    have hch : charIdx ':' (k.data ++ ':' :: trimR (' ' :: v)) = some k.data.length :=
      charIdx_append ':' k.data _ hkc
    have htake : (k.data ++ ':' :: trimR (' ' :: v)).take k.data.length = k.data :=
      List.take_left' rfl
    have hdropv : (k.data ++ ':' :: trimR (' ' :: v)).drop (k.data.length + 1)
        = trimR (' ' :: v) := by
      have h1 : k.data ++ ':' :: trimR (' ' :: v) = (k.data ++ [':']) ++ trimR (' ' :: v) := by
        rw [List.append_assoc]
        rfl
      rw [h1]
      exact List.drop_left' (by simp)
    simp only [parseLine, ht, hT, hie, hhd2, hch, htake, hdropv, hjk, hw]
    simp [hcsharp]

/- ============================================================ -/
/- Round-trip lemma stack (C3): value coercion                  -/
/- ============================================================ -/

theorem coerceVal_plain (s : String) (h : plainScalar s) : coerceVal s.data = .str s := by
  obtain ⟨hnl, htr, hq1, hq2, hbr⟩ := h
  unfold coerceVal
  rw [hq1, hq2, hbr]
  simp

theorem getLast_cons_concat (c a : Char) (l : List Char) :
    (c :: (l ++ [a])).getLast? = some a := by
  have h0 : c :: (l ++ [a]) = (c :: l) ++ [a] := rfl
  rw [h0]
  exact List.getLast?_concat _

theorem coerceVal_quoted (x : List Char) : coerceVal (('"' :: x) ++ ['"']) = .str ⟨x⟩ := by
  have hq : quotePairC '"' (('"' :: x) ++ ['"']) = true := by
    simp [quotePairC, List.getLast?_concat, getLast_cons_concat]
  unfold coerceVal
  rw [hq]
  simp [stripEnds, List.dropLast_concat]

theorem escapeQuotesId (s : List Char) (h : '"' ∉ s) : MarkdownParser.escapeQuotes s = s := by
  induction s with
  | nil => rfl
  | cons c t ih =>
    have hc : c ≠ '"' := fun he => h (he ▸ List.mem_cons_self c t)
    have ht := ih (fun hm => h (List.mem_cons_of_mem c hm))
    have he : MarkdownParser.escapeQuotes (c :: t)
        = if c = '"' then '\\' :: '"' :: MarkdownParser.escapeQuotes t else c :: MarkdownParser.escapeQuotes t := rfl
    rw [he, if_neg hc, ht]

theorem unquoteItem_quoted (x : List Char) : unquoteItem (('"' :: x) ++ ['"']) = x := by
  have hq : quotePairC '"' (('"' :: x) ++ ['"']) = true := by
    simp [quotePairC, List.getLast?_concat, getLast_cons_concat]
  simp only [unquoteItem]
  rw [jsTrim_wrap '"' '"' x (by decide) (by decide), hq]
  simp [stripEnds, List.dropLast_concat]

theorem unquoteItem_space_quoted (x : List Char) :
    unquoteItem (' ' :: (('"' :: x) ++ ['"'])) = x := by
  have hq : quotePairC '"' (('"' :: x) ++ ['"']) = true := by
    simp [quotePairC, List.getLast?_concat, getLast_cons_concat]
  simp only [unquoteItem]
  rw [jsTrim_cons_ws ' ' _ (by decide), jsTrim_wrap '"' '"' x (by decide) (by decide), hq]
  simp [stripEnds, List.dropLast_concat]

theorem mem_joinCommaSp : ∀ (is : List (List Char)) (c : Char), c ∈ MarkdownParser.joinCommaSp is →
    (∃ i ∈ is, c ∈ i) ∨ c = ',' ∨ c = ' ' := by
  intro is
  induction is with
  | nil => intro c h; exact absurd h (List.not_mem_nil c)
  | cons j js ih =>
    cases js with
    | nil =>
      intro c h
      exact Or.inl ⟨j, List.mem_cons_self j [], h⟩
    | cons j₂ js₂ =>
      intro c h
      have h0 : MarkdownParser.joinCommaSp (j :: j₂ :: js₂) = j ++ ',' :: ' ' :: MarkdownParser.joinCommaSp (j₂ :: js₂) := rfl
      rw [h0] at h
      rcases List.mem_append.mp h with hj | hrest
      · exact Or.inl ⟨j, List.mem_cons_self j _, hj⟩
      · rcases List.mem_cons.mp hrest with hc | hrest₂
        · exact Or.inr (Or.inl hc)
        · rcases List.mem_cons.mp hrest₂ with hc | hrest₃
          · exact Or.inr (Or.inr hc)
          · rcases ih c hrest₃ with ⟨i, hi, hci⟩ | hcs
            · exact Or.inl ⟨i, List.mem_cons_of_mem j hi, hci⟩
            · exact Or.inr hcs

theorem splitOnC_joinCommaSp : ∀ (i : List Char) (is : List (List Char)),
    (∀ x ∈ i, x ≠ ',') → (∀ li ∈ is, ∀ x ∈ li, x ≠ ',') →
    splitOnC ',' (MarkdownParser.joinCommaSp (i :: is)) = i :: is.map (fun x => ' ' :: x) := by
  intro i is
  induction is generalizing i with
  | nil =>
    intro hi _
    have h0 : MarkdownParser.joinCommaSp [i] = i := rfl
    rw [h0, splitOnC_no_sep ',' i hi]
    rfl
  | cons j js ih =>
    intro hi hjs
    have h0 : MarkdownParser.joinCommaSp (i :: j :: js) = i ++ ',' :: ' ' :: MarkdownParser.joinCommaSp (j :: js) := rfl
    rw [h0, splitOnC_append_sep ',' i _ hi]
    have hih := ih j (hjs j (List.mem_cons_self j js))
      (fun li hli => hjs li (List.mem_cons_of_mem j hli))
    have h1 : splitOnC ',' (' ' :: MarkdownParser.joinCommaSp (j :: js))
        = (' ' :: j) :: js.map (fun x => ' ' :: x) := by
      simp [splitOnC, hih]
    rw [h1]
    simp

theorem str_data_ne_nil (t : String) (h : t ≠ "") : t.data ≠ [] := by
  intro hd
  apply h
  apply String.ext
  rw [hd]

theorem coerceVal_tags (tags : List String) (h0 : tags ≠ [])
    (h : ∀ t ∈ tags, plainTag t) :
    coerceVal (('[' :: MarkdownParser.joinCommaSp (tags.map (fun t => '"' :: t.data ++ ['"']))) ++ [']'])
      = .arr tags := by
  obtain ⟨t₁, ts, rfl⟩ : ∃ t₁ ts, tags = t₁ :: ts := by
    cases tags with
    | nil => exact absurd rfl h0
    | cons t₁ ts => exact ⟨t₁, ts, rfl⟩
  have hcf : ∀ t, plainTag t → ∀ x ∈ ('"' :: t.data) ++ ['"'], x ≠ ',' := by
    intro t ht x hx he
    rcases List.mem_append.mp hx with hx₁ | hx₂
    · rcases List.mem_cons.mp hx₁ with hq | hd
      · rw [he] at hq; exact absurd hq (by decide)
      · exact ht.2.2.2 (he ▸ hd)
    · rw [he] at hx₂; exact absurd hx₂ (by decide)
  have hq1 : quotePairC '"'
      (('[' :: MarkdownParser.joinCommaSp ((t₁ :: ts).map (fun t => '"' :: t.data ++ ['"']))) ++ [']'])
        = false := by
    simp [quotePairC]
  have hq2 : quotePairC '\''
      (('[' :: MarkdownParser.joinCommaSp ((t₁ :: ts).map (fun t => '"' :: t.data ++ ['"']))) ++ [']'])
        = false := by
    simp [quotePairC]
  unfold coerceVal
  rw [hq1, hq2]
  have hbr : ((('[' :: MarkdownParser.joinCommaSp ((t₁ :: ts).map (fun t => '"' :: t.data ++ ['"']))) ++ [']']).head?
        = some '[' && (('[' :: MarkdownParser.joinCommaSp ((t₁ :: ts).map (fun t => '"' :: t.data ++ ['"']))) ++ [']']).getLast?
        = some ']') = true := by
    simp [List.getLast?_concat, getLast_cons_concat]
  rw [hbr]
  have hstrip : stripEnds
      (('[' :: MarkdownParser.joinCommaSp ((t₁ :: ts).map (fun t => '"' :: t.data ++ ['"']))) ++ [']'])
        = MarkdownParser.joinCommaSp ((t₁ :: ts).map (fun t => '"' :: t.data ++ ['"'])) := by
    simp [stripEnds, List.dropLast_concat]
  have hmap : (t₁ :: ts).map (fun t => '"' :: t.data ++ ['"'])
      = (('"' :: t₁.data) ++ ['"']) :: ts.map (fun t => '"' :: t.data ++ ['"']) := rfl
  have hsplit : splitOnC ','
      (MarkdownParser.joinCommaSp ((t₁ :: ts).map (fun t => '"' :: t.data ++ ['"'])))
        = (('"' :: t₁.data) ++ ['"']) :: (ts.map (fun t => '"' :: t.data ++ ['"'])).map
            (fun x => ' ' :: x) := by
    rw [hmap]
    apply splitOnC_joinCommaSp
    · exact hcf t₁ (h t₁ (List.mem_cons_self t₁ ts))
    · intro li hli
      rcases List.mem_map.mp hli with ⟨t, ht, rfl⟩
      exact hcf t (h t (List.mem_cons_of_mem t₁ ht))
  have huq : ((('"' :: t₁.data) ++ ['"']) :: (ts.map (fun t => '"' :: t.data ++ ['"'])).map
        (fun x => ' ' :: x)).map unquoteItem = t₁.data :: ts.map (fun t => t.data) := by
    rw [List.map_cons, unquoteItem_quoted, List.map_map, List.map_map]
    congr 1
    apply List.map_congr_left
    intro t _
    exact unquoteItem_space_quoted t.data
  have hfil : (t₁.data :: ts.map (fun t => t.data)).filter (fun s => s.length > 0)
      = t₁.data :: ts.map (fun t => t.data) := by
    rw [List.filter_eq_self]
    intro a ha
    rcases List.mem_cons.mp ha with rfl | ha₂
    · exact decide_eq_true (List.length_pos.mpr
        (str_data_ne_nil t₁ (h t₁ (List.mem_cons_self t₁ ts)).1))
    · rcases List.mem_map.mp ha₂ with ⟨t, ht, rfl⟩
      exact decide_eq_true (List.length_pos.mpr
        (str_data_ne_nil t (h t (List.mem_cons_of_mem t₁ ht)).1))
  have hfinal : (t₁.data :: ts.map (fun t => t.data)).map (fun s => (⟨s⟩ : String))
      = t₁ :: ts := by
    have h1 : (fun s => (⟨s⟩ : String)) ∘ (fun t : String => t.data) = id := by
      funext t
      rfl
    rw [List.map_cons, List.map_map, h1, List.map_id]
  simp only [hstrip, hsplit, huq, hfil, hfinal]
  simp

/- ============================================================ -/
/- Round-trip lemma stack (C3): line shapes                     -/
/- ============================================================ -/

theorem line_ok (k : String) (V : List Char)
    (hk0 : k.data ≠ []) (hkh : k.data.head? ≠ some '-')
    (hknl : ∀ c ∈ k.data, c ≠ '\n') (hV : ∀ c ∈ V, c ≠ '\n') :
    (k.data ++ ':' :: ' ' :: V ≠ [] ∧ (k.data ++ ':' :: ' ' :: V).head? ≠ some '-') ∧
      (∀ c ∈ k.data ++ ':' :: ' ' :: V, c ≠ '\n') := by
  obtain ⟨c, kd, hkd⟩ : ∃ c kd, k.data = c :: kd := by
    cases h : k.data with
    | nil => exact absurd h hk0
    | cons c kd => exact ⟨c, kd, rfl⟩
  refine ⟨⟨?_, ?_⟩, ?_⟩
  · rw [hkd, List.cons_append]
    exact List.cons_ne_nil _ _
  · rw [hkd, List.cons_append]
    rw [hkd] at hkh
    exact hkh
  · intro x hx
    rcases List.mem_append.mp hx with h1 | h2
    · exact hknl x h1
    · rcases List.mem_cons.mp h2 with rfl | h3
      · decide
      · rcases List.mem_cons.mp h3 with rfl | h4
        · decide
        · exact hV x h4

theorem parseLine_plain (acc : Yaml) (k s : String)
    (hk0 : k.data ≠ []) (hkw : ∀ c ∈ k.data, c.isWhitespace = false)
    (hkc : ':' ∉ k.data) (hkh : k.data.head? ≠ some '#')
    (hs : plainScalar s) :
    parseLine acc (k.data ++ ':' :: ' ' :: s.data) = yamlInsert acc k (.str s) := by
  rw [parseLine_keyval acc k s.data hk0 hkw hkc hkh, hs.2.1, coerceVal_plain s hs]

theorem parseLine_title (acc : Yaml) (k s : String)
    (hk0 : k.data ≠ []) (hkw : ∀ c ∈ k.data, c.isWhitespace = false)
    (hkc : ':' ∉ k.data) (hkh : k.data.head? ≠ some '#')
    (hs : plainTitle s) :
    parseLine acc (k.data ++ ':' :: ' ' :: ('"' :: MarkdownParser.escapeQuotes s.data ++ ['"']))
      = yamlInsert acc k (.str s) := by
  rw [parseLine_keyval acc k _ hk0 hkw hkc hkh, escapeQuotesId s.data hs.2]
  rw [jsTrim_wrap '"' '"' s.data (by decide) (by decide), coerceVal_quoted s.data]

theorem parseLine_tags (acc : Yaml) (k : String) (tags : List String)
    (hk0 : k.data ≠ []) (hkw : ∀ c ∈ k.data, c.isWhitespace = false)
    (hkc : ':' ∉ k.data) (hkh : k.data.head? ≠ some '#')
    (h0 : tags ≠ []) (h : ∀ t ∈ tags, plainTag t) :
    parseLine acc (k.data ++ ':' :: ' ' ::
        ('[' :: MarkdownParser.joinCommaSp (tags.map (fun t => '"' :: t.data ++ ['"'])) ++ [']']))
      = yamlInsert acc k (.arr tags) := by
  rw [parseLine_keyval acc k _ hk0 hkw hkc hkh]
  rw [jsTrim_wrap '[' ']' (MarkdownParser.joinCommaSp (tags.map (fun t => '"' :: t.data ++ ['"'])))
    (by decide) (by decide)]
  rw [coerceVal_tags tags h0 h]

/- ============================================================ -/
/- Round-trip lemma stack (C3): assembling the parse            -/
/- ============================================================ -/

theorem lookup_append_some (k' : String) (l₁ l₂ : Yaml) (v : YamlVal)
    (h : l₁.lookup k' = some v) : (l₁ ++ l₂).lookup k' = some v := by
  induction l₁ with
  | nil => simp [List.lookup] at h
  | cons p t ih =>
    obtain ⟨k₀, v₀⟩ := p
    rw [List.cons_append]
    cases hbe : (k' == k₀) with
    | true =>
      simp [List.lookup, hbe] at h ⊢
      exact h
    | false =>
      simp [List.lookup, hbe] at h ⊢
      exact ih h

theorem parseLine_quoted (acc : Yaml) (k s : String)
    (hk0 : k.data ≠ []) (hkw : ∀ c ∈ k.data, c.isWhitespace = false)
    (hkc : ':' ∉ k.data) (hkh : k.data.head? ≠ some '#') :
    parseLine acc (k.data ++ ':' :: ' ' :: ('"' :: s.data ++ ['"']))
      = yamlInsert acc k (.str s) := by
  rw [parseLine_keyval acc k _ hk0 hkw hkc hkh]
  rw [jsTrim_wrap '"' '"' s.data (by decide) (by decide), coerceVal_quoted s.data]

theorem parse_serialize_core (fm : MarkdownParser.Frontmatter) (body : String)
    (L : List (List Char))
    (hL : MarkdownParser.yamlLines fm = L)
    (hne : ∀ li ∈ L, li ≠ []) (hnl : ∀ li ∈ L, ∀ c ∈ li, c ≠ '\n')
    (hhd : ∀ li ∈ L, li.head? ≠ some '-') (hLne : L ≠ [])
    (hb : jsTrim body.data = body.data) :
    MarkdownParser.parse (MarkdownParser.serialize fm body)
      = (some (L.foldl parseLine []), body) := by
  have hS0 : (MarkdownParser.serialize fm body).data
      = "---\n".data ++ joinC '\n' (MarkdownParser.yamlLines fm) ++ fmDelim
        ++ '\n' :: body.data ++ ['\n'] := rfl
  have hS : (MarkdownParser.serialize fm body).data
      = "---\n".data ++ (joinC '\n' L ++ (fmDelim ++ ('\n' :: (body.data ++ ['\n'])))) := by
    rw [hS0, hL]
    simp [List.append_assoc]
  have hfm : fmMatch (MarkdownParser.serialize fm body).data
      = some (joinC '\n' L, '\n' :: (body.data ++ ['\n'])) := by
    rw [hS]
    exact fmMatch_block L _ hne hnl hhd
  have hbody : (⟨jsTrim ('\n' :: (body.data ++ ['\n']))⟩ : String) = body := by
    rw [jsTrim_body body.data hb]
  have hyaml : parseYamlSimple (joinC '\n' L) = L.foldl parseLine [] := by
    unfold parseYamlSimple
    rw [splitOnC_joinC '\n' L hLne hnl]
  unfold MarkdownParser.parse
  rw [hfm]
  show (some (parseYamlSimple (joinC '\n' L)),
    (⟨jsTrim ('\n' :: (body.data ++ ['\n']))⟩ : String)) = _
  rw [hyaml, hbody]

theorem roundtrip_lines (fm : MarkdownParser.Frontmatter) (body : String)
    (TAIL : List (List Char)) (VT : Yaml)
    (hty : plainScalar fm.type) (hna : plainScalar fm.name)
    (hpl : plainScalar fm.product_line) (hti : plainTitle fm.title)
    (htag0 : fm.tags ≠ []) (htags : ∀ t ∈ fm.tags, plainTag t)
    (hb : jsTrim body.data = body.data)
    (hcr : '\n' ∉ fm.created.data) (hup : '\n' ∉ fm.updated.data)
    (hL : MarkdownParser.yamlLines fm = yamlBaseLines fm ++ TAIL)
    (hTok : ∀ li ∈ TAIL, (li ≠ [] ∧ li.head? ≠ some '-') ∧ (∀ c ∈ li, c ≠ '\n'))
    (hTfold : TAIL.foldl parseLine (yamlBaseVals fm) = yamlBaseVals fm ++ VT) :
    MarkdownParser.parse (MarkdownParser.serialize fm body)
      = (some (yamlBaseVals fm ++ VT), body) := by
  have hVty : ∀ c ∈ fm.type.data, c ≠ '\n' := fun c hc he => hty.1 (he ▸ hc)
  have hVna : ∀ c ∈ fm.name.data, c ≠ '\n' := fun c hc he => hna.1 (he ▸ hc)
  have hVpl : ∀ c ∈ fm.product_line.data, c ≠ '\n' := fun c hc he => hpl.1 (he ▸ hc)
  have hVcr : ∀ c ∈ fm.created.data, c ≠ '\n' := fun c hc he => hcr (he ▸ hc)
  have hVup : ∀ c ∈ fm.updated.data, c ≠ '\n' := fun c hc he => hup (he ▸ hc)
  have hVti : ∀ c ∈ '"' :: fm.title.data ++ ['"'], c ≠ '\n' := by
    intro c hc
    rcases List.mem_append.mp hc with h1 | h2
    · rcases List.mem_cons.mp h1 with rfl | h3
      · decide
      · exact fun he => hti.1 (he ▸ h3)
    · rcases List.mem_cons.mp h2 with rfl | h4
      · decide
      · exact absurd h4 (List.not_mem_nil c)
  have hVtg : ∀ c ∈ '[' ::
      MarkdownParser.joinCommaSp (fm.tags.map (fun t => '"' :: t.data ++ ['"'])) ++ [']'],
      c ≠ '\n' := by
    intro c hc
    rcases List.mem_append.mp hc with h1 | h2
    · rcases List.mem_cons.mp h1 with rfl | h3
      · decide
      · rcases mem_joinCommaSp _ c h3 with ⟨i, hi, hci⟩ | rfl | rfl
        · rcases List.mem_map.mp hi with ⟨t, ht, rfl⟩
          rcases List.mem_append.mp hci with h4 | h5
          · rcases List.mem_cons.mp h4 with rfl | h6
            · decide
            · exact fun he => (htags t ht).2.1 (he ▸ h6)
          · rcases List.mem_cons.mp h5 with rfl | h7
            · decide
            · exact absurd h7 (List.not_mem_nil c)
        · decide
        · decide
    · rcases List.mem_cons.mp h2 with rfl | h4
      · decide
      · exact absurd h4 (List.not_mem_nil c)
  have hok : ∀ li ∈ yamlBaseLines fm ++ TAIL,
      (li ≠ [] ∧ li.head? ≠ some '-') ∧ (∀ c ∈ li, c ≠ '\n') := by
    intro li hli
    rcases List.mem_append.mp hli with hB | hT
    · simp only [yamlBaseLines, List.mem_cons, List.not_mem_nil, or_false] at hB
      rcases hB with rfl | rfl | rfl | rfl | rfl | rfl | rfl
      · exact line_ok "type" fm.type.data (by decide) (by decide) (by decide) hVty
      · exact line_ok "name" fm.name.data (by decide) (by decide) (by decide) hVna
      · exact line_ok "product_line" fm.product_line.data (by decide) (by decide) (by decide) hVpl
      · exact line_ok "title" _ (by decide) (by decide) (by decide) hVti
      · exact line_ok "tags" _ (by decide) (by decide) (by decide) hVtg
      · exact line_ok "created" fm.created.data (by decide) (by decide) (by decide) hVcr
      · exact line_ok "updated" fm.updated.data (by decide) (by decide) (by decide) hVup
    · exact hTok li hT
  have hne : ∀ li ∈ yamlBaseLines fm ++ TAIL, li ≠ [] := fun li h => (hok li h).1.1
  have hhd : ∀ li ∈ yamlBaseLines fm ++ TAIL, li.head? ≠ some '-' :=
    fun li h => (hok li h).1.2
  have hnl : ∀ li ∈ yamlBaseLines fm ++ TAIL, ∀ c ∈ li, c ≠ '\n' :=
    fun li h => (hok li h).2
  have hLne : yamlBaseLines fm ++ TAIL ≠ [] := by
    simp [yamlBaseLines]
  have hcore := parse_serialize_core fm body (yamlBaseLines fm ++ TAIL) hL hne hnl hhd hLne hb
  have hbase : List.foldl parseLine [] (yamlBaseLines fm) = yamlBaseVals fm := by
    simp only [yamlBaseLines]
    rw [List.foldl_cons,
      parseLine_plain _ "type" fm.type (by decide) (by decide) (by decide) (by decide) hty]
    rw [List.foldl_cons,
      parseLine_plain _ "name" fm.name (by decide) (by decide) (by decide) (by decide) hna]
    rw [List.foldl_cons, parseLine_plain _ "product_line" fm.product_line
      (by decide) (by decide) (by decide) (by decide) hpl]
    rw [List.foldl_cons,
      parseLine_quoted _ "title" fm.title (by decide) (by decide) (by decide) (by decide)]
    rw [List.foldl_cons, parseLine_tags _ "tags" fm.tags
      (by decide) (by decide) (by decide) (by decide) htag0 htags]
    rw [List.foldl_cons, parseLine_keyval _ "created" fm.created.data
      (by decide) (by decide) (by decide) (by decide)]
    rw [List.foldl_cons, parseLine_keyval _ "updated" fm.updated.data
      (by decide) (by decide) (by decide) (by decide)]
    rw [List.foldl_nil]
    simp [yamlBaseVals, yamlInsert]
  have hfold : (yamlBaseLines fm ++ TAIL).foldl parseLine [] = yamlBaseVals fm ++ VT := by
    rw [List.foldl_append, hbase, hTfold]
  rw [hfold] at hcore
  exact hcore

/-- C3 counterexample to the claim as stated: `parse` trims the body, so a
body with leading whitespace is not reproduced verbatim by
`parse (serialize fm body)`. -/
theorem C3_counterexample :
    (MarkdownParser.parse (MarkdownParser.serialize
      { type := "pitfall", name := "n", product_line := "general", title := "T",
        tags := ["x"], created := "c", updated := "u", source_project := none }
      " b")).2 ≠ " b" := by decide

/-- C3 (amended): for a frontmatter whose `type`, `name` and `product_line`
are plain single-line trim-stable scalars that are not quote- or
bracket-delimited, whose `title` is single-line and free of double quotes,
whose `tags` list is nonempty with nonempty single-line quote- and
comma-free entries, whose timestamps and `source_project` are single-line,
and for a body that JS `trim` leaves unchanged,
`parse (serialize fm body)` returns the body verbatim together with a
frontmatter object carrying the same `type`, `name`, `product_line`,
`title` and `tags`. -/
theorem C3_roundtrip_amended (fm : MarkdownParser.Frontmatter) (body : String)
    (hty : plainScalar fm.type) (hna : plainScalar fm.name)
    (hpl : plainScalar fm.product_line) (hti : plainTitle fm.title)
    (htag0 : fm.tags ≠ []) (htags : ∀ t ∈ fm.tags, plainTag t)
    (hcr : '\n' ∉ fm.created.data) (hup : '\n' ∉ fm.updated.data)
    (hsp : ∀ sp, fm.source_project = some sp → '\n' ∉ sp.data)
    (hb : jsTrim body.data = body.data) :
    ∃ y, MarkdownParser.parse (MarkdownParser.serialize fm body) = (some y, body) ∧
      y.lookup "type" = some (.str fm.type) ∧
      y.lookup "name" = some (.str fm.name) ∧
      y.lookup "product_line" = some (.str fm.product_line) ∧
      y.lookup "title" = some (.str fm.title) ∧
      y.lookup "tags" = some (.arr fm.tags) := by
  have htlen : fm.tags.length > 0 := List.length_pos.mpr htag0
  have hlook : ∀ VT : Yaml,
      (yamlBaseVals fm ++ VT).lookup "type" = some (.str fm.type) ∧
      (yamlBaseVals fm ++ VT).lookup "name" = some (.str fm.name) ∧
      (yamlBaseVals fm ++ VT).lookup "product_line" = some (.str fm.product_line) ∧
      (yamlBaseVals fm ++ VT).lookup "title" = some (.str fm.title) ∧
      (yamlBaseVals fm ++ VT).lookup "tags" = some (.arr fm.tags) := by
    intro VT
    refine ⟨?_, ?_, ?_, ?_, ?_⟩ <;>
      exact lookup_append_some _ _ VT _ (by simp [yamlBaseVals, List.lookup])
  rcases hspq : fm.source_project with _ | sp
  · have hL : MarkdownParser.yamlLines fm = yamlBaseLines fm ++ [] := by
      simp [MarkdownParser.yamlLines, yamlBaseLines, hspq, htlen,
        escapeQuotesId fm.title.data hti.2]
    have hp := roundtrip_lines fm body [] [] hty hna hpl hti htag0 htags hb hcr hup hL
      (fun li h => absurd h (List.not_mem_nil li))
      (by rw [List.foldl_nil]; simp)
    exact ⟨yamlBaseVals fm ++ [], hp, hlook []⟩
  · by_cases hspe : sp = ""
    · have hL : MarkdownParser.yamlLines fm = yamlBaseLines fm ++ [] := by
        simp [MarkdownParser.yamlLines, yamlBaseLines, hspq, hspe, htlen,
          escapeQuotesId fm.title.data hti.2]
      have hp := roundtrip_lines fm body [] [] hty hna hpl hti htag0 htags hb hcr hup hL
        (fun li h => absurd h (List.not_mem_nil li))
        (by rw [List.foldl_nil]; simp)
      exact ⟨yamlBaseVals fm ++ [], hp, hlook []⟩
    · have hspnl : ∀ c ∈ sp.data, c ≠ '\n' := fun c hc he => hsp sp hspq (he ▸ hc)
      have hL : MarkdownParser.yamlLines fm
          = yamlBaseLines fm ++ ["source_project".data ++ ':' :: ' ' :: sp.data] := by
        simp [MarkdownParser.yamlLines, yamlBaseLines, hspq, hspe, htlen,
          escapeQuotesId fm.title.data hti.2]
      have hTok : ∀ li ∈ ["source_project".data ++ ':' :: ' ' :: sp.data],
          (li ≠ [] ∧ li.head? ≠ some '-') ∧ (∀ c ∈ li, c ≠ '\n') := by
        intro li hli
        rcases List.mem_cons.mp hli with rfl | h
        · exact line_ok "source_project" sp.data (by decide) (by decide) (by decide) hspnl
        · exact absurd h (List.not_mem_nil li)
      have hTfold : ["source_project".data ++ ':' :: ' ' :: sp.data].foldl parseLine
            (yamlBaseVals fm)
          = yamlBaseVals fm ++ [("source_project", coerceVal (jsTrim sp.data))] := by
        rw [List.foldl_cons, parseLine_keyval _ "source_project" sp.data
          (by decide) (by decide) (by decide) (by decide), List.foldl_nil]
        simp [yamlBaseVals, yamlInsert]
      have hp := roundtrip_lines fm body _ _ hty hna hpl hti htag0 htags hb hcr hup hL
        hTok hTfold
      exact ⟨_, hp, hlook _⟩

/-- Witness for C3 (amended): a concrete record with all fields populated,
tags `["db", "cache"]`, a `source_project` and a plain body. -/
theorem C3_witness :
    ∃ y, MarkdownParser.parse (MarkdownParser.serialize
        { type := "pitfall", name := "redis-timeout", product_line := "infra",
          title := "Redis timeout", tags := ["db", "cache"],
          created := "2024-01-01T00:00:00.000Z", updated := "2024-01-01T00:00:00.000Z",
          source_project := some "proj" } "Body text")
      = (some y, "Body text") ∧
      y.lookup "type" = some (.str "pitfall") ∧
      y.lookup "name" = some (.str "redis-timeout") ∧
      y.lookup "product_line" = some (.str "infra") ∧
      y.lookup "title" = some (.str "Redis timeout") ∧
      y.lookup "tags" = some (.arr ["db", "cache"]) :=
  C3_roundtrip_amended
    { type := "pitfall", name := "redis-timeout", product_line := "infra",
      title := "Redis timeout", tags := ["db", "cache"],
      created := "2024-01-01T00:00:00.000Z", updated := "2024-01-01T00:00:00.000Z",
      source_project := some "proj" } "Body text"
    (by decide) (by decide) (by decide) (by decide) (by decide) (by decide)
    (by decide) (by decide)
    (fun s hs => by rw [← Option.some.inj hs]; decide)
    (by decide)

end SyncSpec
